import Mathlib

/-!
Shallow embedding of the PBLS repository's core search-and-detrend kernel
(src/pbls/pbls.py), the multiprocessing driver (src/pbls/mp_pbls.py), the
period-grid generators (src/pbls/period_grids.py), the chunk partitioner
(src/pbls/pbls_chunk_pipeline.py) and the merge step
(src/drivers/run_pbls_merge.py).

Modelling conventions:
* IEEE-754 doubles are modelled by exact rationals; the special values that the
  search logic manipulates explicitly (the minus-infinity sentinel of the
  running maxima, NaN produced by means of empty pools) are modelled by the
  carrier `PF` below, whose comparison mirrors IEEE ordered comparison
  (any comparison with NaN is false).
* The square root (the only non-rational operation in pbls.py) is passed as an
  explicit function parameter `sq : ℚ → ℚ`; every theorem below is quantified
  over it, so nothing depends on a particular rational approximation.
* numpy scalar/array error behaviour that the sources can hit is noted in the
  doc comment of each definition.
-/

/-- Python-float carrier for the SNR statistic and the power array: either a
finite rational or one of the special values nan, -inf, +inf that the source
manipulates (`-np.inf` sentinel, NaN from empty-pool means). -/
inductive PF where
  | nan : PF
  | ninf : PF
  | pinf : PF
  | fin : ℚ → PF
deriving DecidableEq

/-- IEEE "is nan" test (math.isnan in run_pbls_merge.py). -/
def PF.isNanB : PF → Bool
  | PF.nan => true
  | _ => false

/-- IEEE ordered greater-than: every comparison involving NaN is false;
-inf is below every non-NaN value; +inf above every non-NaN value. -/
def PF.gtB : PF → PF → Bool
  | PF.nan, _ => false
  | _, PF.nan => false
  | PF.pinf, PF.pinf => false
  | PF.pinf, _ => true
  | PF.ninf, _ => false
  | PF.fin _, PF.pinf => false
  | PF.fin _, PF.ninf => true
  | PF.fin a, PF.fin b => decide (b < a)

/-- Model of np.min over a 1-D array. On an empty array np.min raises
ValueError, so pbls_search aborts for an empty time series; that error path is
modelled by the junk value 0 here, and every theorem asserting that
pbls_search returns normally therefore carries a nonempty-time hypothesis. -/
def npMin : List ℚ → ℚ
  | [] => 0
  | x :: xs => xs.foldl min x

/-- Model of the arithmetic mean np.mean of a nonempty array (np.mean of an
empty array is NaN; callers below branch on emptiness before using this). -/
def npMean (l : List ℚ) : ℚ := l.sum / (l.length : ℚ)

/-- Model of np.var (population variance, ddof = 0). -/
def npVar (l : List ℚ) : ℚ := ((l.map (fun x => (x - npMean l) ^ 2)).sum) / (l.length : ℚ)

/-- Model of np.nanmedian on a NaN-free array: middle element of the sorted
array, or the average of the two middle elements for even length. -/
def npMedian (l : List ℚ) : ℚ :=
  let s := List.insertionSort (· ≤ ·) l
  if l.length = 0 then 0
  else if l.length % 2 = 1 then s.getD (l.length / 2) 0
  else (s.getD (l.length / 2 - 1) 0 + s.getD (l.length / 2) 0) / 2

/-- Model of np.linspace with endpoint=True: n evenly spaced rationals from a
to b inclusive (n = 1 gives [a], n = 0 gives []). -/
def linspace (a b : ℚ) (n : ℕ) : List ℚ :=
  if n = 1 then [a]
  else (List.range n).map (fun i : ℕ => a + (b - a) * (i : ℚ) / ((n : ℚ) - 1))

/-- Model of numpy % (np.remainder): result has the sign of the divisor; for
the positive divisors used by pbls_search this is the floor-mod a - b*⌊a/b⌋.
numpy yields NaN for b = 0; that case is unreachable (trial periods > 0). -/
def qmod (a b : ℚ) : ℚ := a - b * (⌊a / b⌋ : ℚ)

/-- Model of np.round on a scalar: round half to even (banker's rounding). -/
def qround (q : ℚ) : ℤ :=
  let n := ⌊q⌋
  let frac := q - (n : ℚ)
  if frac < 1 / 2 then n
  else if 1 / 2 < frac then n + 1
  else if n % 2 = 0 then n else n + 1

/-- Accumulator for split_segments: remaining indices, previous index, current
run collected in reverse. A new run starts exactly where np.diff(idx) > 1. -/
def splitSegAux : List ℕ → ℕ → List ℕ → List (List ℕ)
  | [], _, cur => [cur.reverse]
  | y :: ys, prev, cur =>
    if prev + 1 < y then cur.reverse :: splitSegAux ys y [y]
    else splitSegAux ys y (y :: cur)

/-- Model of split_segments (pbls.py lines 5-16): split sorted indices into
maximal contiguous runs. -/
def split_segments : List ℕ → List (List ℕ)
  | [] => []
  | x :: xs => splitSegAux xs x [x]

/-- Structurally recursive determinant by cofactor expansion along the first
row; proved equal to Mathlib's Matrix.det below. Used so that the embedded
solver is a plain computation. -/
def detFin : (n : ℕ) → Matrix (Fin n) (Fin n) ℚ → ℚ
  | 0, _ => 1
  | n + 1, A => ∑ j : Fin (n + 1), (-1) ^ (j : ℕ) * A 0 j * detFin n (A.submatrix Fin.succ j.succAbove)

/-- Model of np.linalg.solve: the unique solution of a nonsingular square
system, computed by Cramer's rule (np.linalg.solve raises LinAlgError on a
singular matrix; that case is modelled by the junk value 0). -/
def linSolve {n : ℕ} (A : Matrix (Fin n) (Fin n) ℚ) (b : Fin n → ℚ) : Fin n → ℚ :=
  if detFin n A = 0 then fun _ => 0
  else fun i => (detFin n A)⁻¹ * detFin n (A.updateColumn i b)

/-- Vandermonde design matrix built from the out-of-transit points only
(pbls.py detrend_segment lines 24-29): row i is x^polyOrder, ..., x^0 with
x the (already shifted) time of the i-th out-of-transit point. -/
def vandermondeOut (tLoc : List ℚ) (outIdx : List ℕ) (polyOrder : ℕ) :
    Matrix (Fin outIdx.length) (Fin (polyOrder + 1)) ℚ :=
  Matrix.of fun i j => (tLoc.getD (outIdx.get i) 0) ^ (polyOrder - (j : ℕ))

/-- Normal-equations matrix V^T V with the ridge term eps = 1e-8 added to every
diagonal entry (pbls.py lines 31-35; adding eps to each diagonal entry equals
adding eps times the identity). -/
def normalEqMat (tLoc : List ℚ) (outIdx : List ℕ) (polyOrder : ℕ) :
    Matrix (Fin (polyOrder + 1)) (Fin (polyOrder + 1)) ℚ :=
  (vandermondeOut tLoc outIdx polyOrder).transpose * vandermondeOut tLoc outIdx polyOrder
    + (1 / 100000000 : ℚ) • 1

/-- Out-of-transit flux vector f[out_idx] fed to the normal equations. -/
def outFluxVec (fLoc : List ℚ) (outIdx : List ℕ) : Fin outIdx.length → ℚ :=
  fun i => fLoc.getD (outIdx.get i) 0

/-- Model of detrend_segment (pbls.py lines 19-45): solve the ridge-regularised
normal equations on the out-of-transit points, evaluate the fitted polynomial
on every point of the local window, and return (model values, residuals
f - model, coefficients highest power first). -/
def detrend_segment (tLoc fLoc : List ℚ) (outIdx : List ℕ) (polyOrder : ℕ) :
    List ℚ × List ℚ × List ℚ :=
  let coeffs := linSolve (normalEqMat tLoc outIdx polyOrder)
    ((vandermondeOut tLoc outIdx polyOrder).transpose.mulVec (outFluxVec fLoc outIdx))
  let mval := tLoc.map (fun x => ∑ j : Fin (polyOrder + 1), coeffs j * x ^ (polyOrder - (j : ℕ)))
  (mval, List.zipWith (fun f m => f - m) fLoc mval, List.ofFn coeffs)

/-- Relative phase of a point for one (period, duration, epoch) trial
(pbls.py lines 129, 146-149): fold the time into phase in [0,1), subtract the
transit-center phase epoch + duration/2, and wrap with np.round into
[-1/2, 1/2]. -/
def relPhase (tmin P d epoch t : ℚ) : ℚ :=
  let ph := qmod (t - tmin) P / P
  let r := ph - (epoch + d * (1 / 2))
  r - (qround r : ℚ)

/-- Indices of the points inside the +-3*Tdur local window of the trial
(pbls.py lines 151-154). -/
def localIdxList (time : List ℚ) (tmin P d epoch : ℚ) : List ℕ :=
  (List.range time.length).filter
    (fun i => decide (|relPhase tmin P d epoch (time.getD i 0)| ≤ 3 * d))

/-- Positions (within one segment) of the in-transit points, those with
relative phase within +-Tdur/2 (pbls.py line 163). -/
def inLocalList (time : List ℚ) (tmin P d epoch : ℚ) (seg : List ℕ) : List ℕ :=
  (List.range seg.length).filter
    (fun j => decide (|relPhase tmin P d epoch (time.getD (seg.getD j 0) 0)| ≤ d * (1 / 2)))

/-- Good-transit filter (pbls.py lines 158-168): split the local indices into
contiguous segments; keep a segment (with its in-transit positions) only if
its out-of-transit count is at least poly_order + 1. -/
def goodTransitList (time : List ℚ) (tmin P d epoch : ℚ) (polyOrder : ℕ) :
    List (List ℕ × List ℕ) :=
  (split_segments (localIdxList time tmin P d epoch)).filterMap (fun seg =>
    let inLoc := inLocalList time tmin P d epoch seg
    if seg.length - inLoc.length < polyOrder + 1 then none else some (seg, inLoc))

/-- Model of np.setdiff1d(np.arange(len(seg)), in_local): the ordered
out-of-transit positions within one segment. -/
def outLocalList (seg inLoc : List ℕ) : List ℕ :=
  (List.range seg.length).filter (fun j => decide (j ∉ inLoc))

/-- Per-segment detrending data collected in the second pass of pbls_search
(pbls.py lines 179-204). -/
structure SegFit where
  tLoc : List ℚ
  fLoc : List ℚ
  mval : List ℚ
  fcor : List ℚ
  inFlux : List ℚ
  outFlux : List ℚ
  coeffs : List ℚ

/-- Second-pass body for one good transit (pbls.py lines 179-204): gather the
local times/fluxes, subtract the out-of-transit median time from the abscissa,
detrend, and read back in/out-of-transit residuals. -/
def fitSegment (time flux : List ℚ) (polyOrder : ℕ) (g : List ℕ × List ℕ) : SegFit :=
  let tLoc := g.1.map (fun i => time.getD i 0)
  let fLoc := g.1.map (fun i => flux.getD i 0)
  let outLoc := outLocalList g.1 g.2
  let t0 := npMedian (outLoc.map (fun j => tLoc.getD j 0))
  let r := detrend_segment (tLoc.map (fun t => t - t0)) fLoc outLoc polyOrder
  { tLoc := tLoc, fLoc := fLoc, mval := r.1, fcor := r.2.1,
    inFlux := g.2.map (fun j => r.2.1.getD j 0),
    outFlux := outLoc.map (fun j => r.2.1.getD j 0),
    coeffs := r.2.2 }

/-- Depth and SNR of one trial from the pooled residuals (pbls.py lines
215-221): depth = mean(out) - mean(in), snr = depth / sqrt(var_in/n_in +
var_out/n_out). An empty pool makes np.mean/np.var return NaN, which
propagates to both; a zero square root makes the IEEE quotient +-inf (or NaN
for 0/0). -/
def snrDepth (sq : ℚ → ℚ) (Rin Rout : List ℚ) : PF × PF :=
  if Rin.length = 0 ∨ Rout.length = 0 then (PF.nan, PF.nan)
  else
    let depth := npMean Rout - npMean Rin
    let s := sq (npVar Rin / (Rin.length : ℚ) + npVar Rout / (Rout.length : ℚ))
    if s = 0 then
      (if 0 < depth then PF.pinf else if depth < 0 then PF.ninf else PF.nan, PF.fin depth)
    else (PF.fin (depth / s), PF.fin depth)

/-- Concatenated best-model arrays snapshotted on a global-best update
(pbls.py lines 236-241 and 258-265). -/
structure Snapshot where
  time : List ℚ
  flux : List ℚ
  model_flux : List ℚ
  flux_resid : List ℚ
  all_in_transit_flux : List ℚ
  all_out_transit_flux : List ℚ
deriving DecidableEq

/-- Outcome of one evaluated (period, duration, epoch) trial. -/
structure TrialOut where
  snr : PF
  depth : PF
  snapshot : Snapshot
  coeffs : List (List ℚ)

/-- Model of the body of the epoch loop of pbls_search (pbls.py lines 141-221):
returns none when the trial is skipped by continue (local window too small, or
zero good transits), otherwise the trial's SNR, depth and concatenated arrays. -/
def evalTrial (sq : ℚ → ℚ) (time flux : List ℚ) (tmin : ℚ) (polyOrder : ℕ)
    (P d epoch : ℚ) : Option TrialOut :=
  if (localIdxList time tmin P d epoch).length < polyOrder + 1 then none
  else
    let good := goodTransitList time tmin P d epoch polyOrder
    if good.isEmpty then none
    else
      let fits := good.map (fitSegment time flux polyOrder)
      let Rin := (fits.map SegFit.inFlux).flatten
      let Rout := (fits.map SegFit.outFlux).flatten
      some {
        snr := (snrDepth sq Rin Rout).1,
        depth := (snrDepth sq Rin Rout).2,
        snapshot := { time := (fits.map SegFit.tLoc).flatten,
                      flux := (fits.map SegFit.fLoc).flatten,
                      model_flux := (fits.map SegFit.mval).flatten,
                      flux_resid := (fits.map SegFit.fcor).flatten,
                      all_in_transit_flux := Rin,
                      all_out_transit_flux := Rout },
        coeffs := fits.map SegFit.coeffs }

/-- Running global best of pbls_search (pbls.py lines 99-111): -inf SNR and
all-None parameters and model until the first successful update. -/
structure GlobalBest where
  snr : PF
  period : Option ℚ
  duration_hr : Option ℚ
  epoch : Option ℚ
  depth : Option PF
  model : Option Snapshot
deriving DecidableEq

/-- Initial global-best state. -/
def initGlobal : GlobalBest :=
  { snr := PF.ninf, period := none, duration_hr := none, epoch := none,
    depth := none, model := none }

/-- Strict global-best update (pbls.py lines 229-241): first-found wins on
ties; the stored duration is converted back to hours. -/
def updateGlobal (g : GlobalBest) (P d epoch : ℚ) (o : TrialOut) : GlobalBest :=
  if PF.gtB o.snr g.snr then
    { snr := o.snr, period := some P, duration_hr := some (d * P * 24),
      epoch := some epoch, depth := some o.depth, model := some o.snapshot }
  else g

/-- One step of the duration-epoch loop: evaluate the trial and update the
period-level maximum (with its coefficients, pbls.py lines 224-226) and the
global best (lines 229-241); a skipped trial leaves the state unchanged. -/
def stepTrial (sq : ℚ → ℚ) (time flux : List ℚ) (tmin : ℚ) (polyOrder : ℕ) (P : ℚ)
    (st : PF × Option (List (List ℚ)) × GlobalBest) (de : ℚ × ℚ) :
    PF × Option (List (List ℚ)) × GlobalBest :=
  match evalTrial sq time flux tmin polyOrder P de.1 de.2 with
  | none => st
  | some o =>
    (if PF.gtB o.snr st.1 then o.snr else st.1,
     if PF.gtB o.snr st.1 then some o.coeffs else st.2.1,
     updateGlobal st.2.2 P de.1 de.2 o)

/-- All (duration, epoch) pairs tried for one period (pbls.py lines 131-141):
durations are the trial durations_hr converted to a fraction of the period,
epochs are epoch_steps evenly spaced phases in [0, 1 - duration]. -/
def trialPairs (durations_hr : List ℚ) (epoch_steps : ℕ) (P : ℚ) : List (ℚ × ℚ) :=
  (durations_hr.map (fun dh => dh / 24 / P)).flatMap
    (fun d => (linspace 0 (1 - d) epoch_steps).map (fun e => (d, e)))

/-- Model of one iteration of the period loop: fold the duration-epoch trials
starting from the -inf period-level maximum. -/
def evalPeriod (sq : ℚ → ℚ) (time flux : List ℚ) (tmin : ℚ) (polyOrder : ℕ)
    (durations_hr : List ℚ) (epoch_steps : ℕ) (g : GlobalBest) (P : ℚ) :
    PF × Option (List (List ℚ)) × GlobalBest :=
  (trialPairs durations_hr epoch_steps P).foldl
    (stepTrial sq time flux tmin polyOrder P) (PF.ninf, none, g)

/-- Model of the period loop of pbls_search (pbls.py lines 124-244): one power
entry (and one coefficient record) appended per trial period, with the global
best threaded through. -/
def searchPeriods (sq : ℚ → ℚ) (time flux : List ℚ) (tmin : ℚ) (polyOrder : ℕ)
    (durations_hr : List ℚ) (epoch_steps : ℕ) (g : GlobalBest) :
    List ℚ → List PF × List (Option (List (List ℚ))) × GlobalBest
  | [] => ([], [], g)
  | P :: Ps =>
    let r := evalPeriod sq time flux tmin polyOrder durations_hr epoch_steps g P
    let rest := searchPeriods sq time flux tmin polyOrder durations_hr epoch_steps r.2.2 Ps
    (r.1 :: rest.1, r.2.1 :: rest.2.1, rest.2.2)

/-- The best_params record of the returned dictionary (pbls.py lines 248-254). -/
structure BestParams where
  period : Option ℚ
  duration_hr : Option ℚ
  epoch : Option ℚ
  depth : Option PF
  snr : PF
deriving DecidableEq

/-- The result dictionary of pbls_search (pbls.py lines 247-266). -/
structure SearchResult where
  best_params : BestParams
  power : List PF
  coeffs : List (Option (List (List ℚ)))
  periods : List ℚ
  best_model : Option Snapshot

/-- Joint sort of (time, flux) pairs by time (pbls.py lines 120-122; numpy's
default argsort is an unstable quicksort, modelled by a deterministic stable
sort, which agrees with it whenever the time values are distinct). -/
def sortedPairs (time flux : List ℚ) : List (ℚ × ℚ) :=
  List.insertionSort (fun p q : ℚ × ℚ => p.1 ≤ q.1) (time.zip flux)

/-- Body of pbls_search applied to the already sorted pair list and the
precomputed tmin. -/
def searchFromSorted (sq : ℚ → ℚ) (sorted : List (ℚ × ℚ)) (tmin : ℚ)
    (periods durations_hr : List ℚ) (epoch_steps polyOrder : ℕ) : SearchResult :=
  let stime := sorted.map Prod.fst
  let sflux := sorted.map Prod.snd
  let r := searchPeriods sq stime sflux tmin polyOrder durations_hr epoch_steps initGlobal periods
  { best_params := { period := r.2.2.period, duration_hr := r.2.2.duration_hr,
                     epoch := r.2.2.epoch, depth := r.2.2.depth, snr := r.2.2.snr },
    power := r.1, coeffs := r.2.1, periods := periods, best_model := r.2.2.model }

/-- Model of pbls_search (pbls.py lines 47-268). tmin is taken over the raw
input (line 116, before the sort); time and flux are then jointly sorted by
time (lines 120-122). The extra first argument sq models np.sqrt. -/
def pbls_search (sq : ℚ → ℚ) (time flux : List ℚ) (periods durations_hr : List ℚ)
    (epoch_steps polyOrder : ℕ) : SearchResult :=
  searchFromSorted sq (sortedPairs time flux) (npMin time) periods durations_hr
    epoch_steps polyOrder

/-- Record returned by the multiprocessing worker tuple (mp_pbls.py line 14). -/
structure WorkerOut where
  period : ℚ
  power0 : PF
  snr : Option PF
  duration : Option PF
  epoch : Option PF
  depth : Option PF
  model : Option Snapshot

/-- The best_params dictionary literally constructed by pbls_search (pbls.py
lines 248-254): a string-keyed association list. A None value models Python
None; a some value a float. -/
def best_params_dict (r : SearchResult) : List (String × Option PF) :=
  [(r"period", r.best_params.period.map PF.fin),
   (r"duration_hr", r.best_params.duration_hr.map PF.fin),
   (r"epoch", r.best_params.epoch.map PF.fin),
   (r"depth", r.best_params.depth),
   (r"snr", some r.best_params.snr)]

/-- Python dictionary subscription: a missing key raises KeyError. -/
def lookupKey (d : List (String × Option PF)) (k : String) : Except String (Option PF) :=
  match d.lookup k with
  | some v => Except.ok v
  | none => Except.error ((r"KeyError: ") ++ k)

/-- Model of _worker (mp_pbls.py lines 6-14): run pbls_search on a single
period and read the fields of the returned dictionaries, in the evaluation
order of the source tuple. Dictionary accesses go through lookupKey so the
KeyError raised by a missing key is modelled by the error channel. -/
def worker (sq : ℚ → ℚ) (time flux : List ℚ) (trial_period : ℚ)
    (durations_hr : List ℚ) (epoch_steps polyOrder : ℕ) : Except String WorkerOut := do
  let res := pbls_search sq time flux [trial_period] durations_hr epoch_steps polyOrder
  let power0 ← match res.power.head? with
    | some p => Except.ok p
    | none => Except.error (r"IndexError: index 0 is out of bounds")
  let d := best_params_dict res
  let snr ← lookupKey d (r"snr")
  let dur ← lookupKey d (r"duration")
  let ep ← lookupKey d (r"epoch")
  let dep ← lookupKey d (r"depth")
  Except.ok { period := trial_period, power0 := power0, snr := snr, duration := dur,
              epoch := ep, depth := dep, model := res.best_model }

/-- Result record of fast_pbls_search (mp_pbls.py lines 38-49). -/
structure MpResult where
  best_period : ℚ
  best_duration : Option PF
  best_epoch : Option PF
  best_depth : Option PF
  best_snr : Option PF
  power : List PF
  periods : List ℚ
  best_model : Option Snapshot

/-- Model of fast_pbls_search (mp_pbls.py lines 17-49): map the single-period
worker over the trial periods preserving submission order (pool.map; any
exception in a task propagates to the caller, modelled by Except), then take
the argmax of the per-period best SNRs (np.argmax of an empty list raises
ValueError; the fold keeps the first maximum, matching np.argmax on NaN-free
data). -/
def fast_pbls_search (sq : ℚ → ℚ) (time flux : List ℚ) (periods durations_hr : List ℚ)
    (epoch_steps polyOrder : ℕ) : Except String MpResult := do
  let results ← periods.mapM (fun p => worker sq time flux p durations_hr epoch_steps polyOrder)
  match results with
  | [] => Except.error (r"ValueError: attempt to get argmax of an empty sequence")
  | r0 :: rs =>
    let best := rs.foldl
      (fun acc r => if PF.gtB (r.snr.getD PF.nan) (acc.snr.getD PF.nan) then r else acc) r0
    Except.ok { best_period := best.period, best_duration := best.duration,
                best_epoch := best.epoch, best_depth := best.depth, best_snr := best.snr,
                power := results.map WorkerOut.power0, periods := periods,
                best_model := best.model }

/-- Python int() on a float: truncation toward zero. -/
def intTrunc (q : ℚ) : ℤ := if q < 0 then ⌈q⌉ else ⌊q⌋

/-- Model of generate_uniformfreq_period_grid (period_grids.py lines 22-49):
clamp the maximum period, place N_freq frequencies uniformly in
[1/period_max, 1/period_min], reverse, and invert to periods. The source
performs no input validation and raises nothing; N_freq < 1 just produces an
empty frequency array (np.linspace would raise only for a negative count,
clamped away by toNat here, which requires negative physical inputs). -/
def generate_uniformfreq_period_grid (total_time cadence oversample period_min
    clamp_period_max : ℚ) : List ℚ :=
  let period_max := min (total_time / 2) clamp_period_max
  let N_freq := (intTrunc (oversample * total_time / cadence)).toNat
  let f_min := 1 / period_max
  let f_max := 1 / period_min
  ((linspace f_min f_max N_freq).reverse).map (fun f => 1 / f)

def jenkinsLoop (c pmax P : ℚ) : List ℚ :=
  if h1 : P < pmax then
    if h2 : 0 < c ∧ 0 < P then
      (P + c * P) :: jenkinsLoop c pmax (P + c * P)
    else []
  else []
termination_by (⌈(pmax - P) / (c * P)⌉).toNat
decreasing_by
  obtain ⟨hc, hP⟩ := h2
  have hP' : 0 < P + c * P := by nlinarith
  have hden : 0 < c * P := mul_pos hc hP
  have hden' : 0 < c * (P + c * P) := mul_pos hc hP'
  have hr : 0 < (pmax - P) / (c * P) := div_pos (by linarith) hden
  have hceil1 : (1 : ℤ) ≤ ⌈(pmax - P) / (c * P)⌉ := by
    have := Int.ceil_pos.mpr hr
    omega
  by_cases hPm : P + c * P < pmax
  · have key : (pmax - (P + c * P)) / (c * (P + c * P)) ≤ (pmax - P) / (c * P) - 1 := by
      have h1le : (pmax - (P + c * P)) / (c * (P + c * P)) ≤ (pmax - (P + c * P)) / (c * P) := by
        apply div_le_div_of_nonneg_left (by linarith) hden
        nlinarith
      have h2eq : (pmax - (P + c * P)) / (c * P) = (pmax - P) / (c * P) - 1 := by
        field_simp
        ring
      linarith
    have hle : ⌈(pmax - (P + c * P)) / (c * (P + c * P))⌉ ≤ ⌈(pmax - P) / (c * P)⌉ - 1 := by
      calc ⌈(pmax - (P + c * P)) / (c * (P + c * P))⌉
          ≤ ⌈(pmax - P) / (c * P) - 1⌉ := Int.ceil_le_ceil key
        _ = ⌈(pmax - P) / (c * P)⌉ - 1 := Int.ceil_sub_one ((pmax - P) / (c * P))
    omega
  · have hnum : pmax - (P + c * P) ≤ 0 := by linarith
    have hr' : (pmax - (P + c * P)) / (c * (P + c * P)) ≤ 0 :=
      div_nonpos_of_nonpos_of_nonneg hnum (le_of_lt hden')
    have hle : ⌈(pmax - (P + c * P)) / (c * (P + c * P))⌉ ≤ 0 :=
      Int.ceil_le.mpr (by exact_mod_cast hr')
    omega

/-- Model of generate_Jenkins2010_period_grid (period_grids.py lines 107-134):
start at period_min and repeatedly add delta_P = 4(1-min_corr)*duration*P /
total_time while P < period_max, appending after each increment. -/
def generate_Jenkins2010_period_grid (duration total_time period_min period_max
    min_corr : ℚ) : List ℚ :=
  period_min :: jenkinsLoop (4 * (1 - min_corr) * duration / total_time) period_max period_min

/-- Model of generate_Ofir2014_period_grid (period_grids.py lines 51-105) over
the reals (the source uses cube roots, hence irrational values). Follows the
source line by line: SI conversions, A and C coefficients, N_opt, the cubic
frequency ladder, reversal, inversion to periods, day conversion, and the
final containment mask (period_min, period_max]. The n_transits_min argument
is accepted and unused, exactly as in the source. -/
noncomputable def generate_Ofir2014_period_grid (time_span R_star M_star period_min
    clamp_period_max oversampling_factor : ℝ) (n_transits_min : ℕ) : List ℝ :=
  let R := R_star * 6.957e8
  let M := M_star * 1.98847e30
  let T := time_span * 86400
  let period_max := min (time_span / 2) clamp_period_max
  let f_min := 1 / period_max
  let f_max := 1 / period_min
  let A := ((2 * Real.pi) ^ ((2 : ℝ) / 3) / Real.pi) * R / (6.67430e-11 * M) ^ ((1 : ℝ) / 3)
    / (T * oversampling_factor)
  let C := f_min ^ ((1 : ℝ) / 3) - A / 3
  let N_opt := (f_max ^ ((1 : ℝ) / 3) - f_min ^ ((1 : ℝ) / 3) + A / 3) * 3 / A
  let N := (⌊N_opt⌋).toNat
  let f_x := (List.range N).map (fun k : ℕ => (A / 3 * ((k : ℝ) + 1) + C) ^ (3 : ℕ))
  let P_x := (f_x.reverse).map (fun f => 1 / f)
  let periods := P_x.map (fun p => p / 86400)
  periods.filter (fun p => @decide (period_min < p ∧ p ≤ period_max) (Classical.propDecidable _))

/-- Chunk start index (pbls_chunk_pipeline.py line 101): start = i*base +
min(i, rem) with base = N // C and rem = N % C. -/
def chunkStart (N C i : ℕ) : ℕ := i * (N / C) + min i (N % C)

/-- Chunk size (pbls_chunk_pipeline.py line 103): count = base + 1 for
i < rem, else base. -/
def chunkCount (N C i : ℕ) : ℕ := N / C + if i < N % C then 1 else 0

/-- One chunk's pickled search output as read by the merge driver: its power
list, its periods, and an opaque payload standing for the
(best_params, best_model) pair. -/
structure ChunkOut (α : Type) where
  power : List PF
  periods : List ℚ
  payload : α

/-- Candidate score of a chunk (run_pbls_merge.py lines 127-128): the maximum
of the power entries that are not NaN (minus infinity is NOT filtered), and
the float 0 when every entry is NaN. Python max keeps the first of equal
elements, matching the fold. -/
def maxNonNan (l : List PF) : PF :=
  match l.filter (fun p => !p.isNanB) with
  | [] => PF.fin 0
  | x :: xs => xs.foldl (fun a b => if PF.gtB b a then b else a) x

/-- Loop body of the merge (run_pbls_merge.py lines 114-133): skip a chunk
with an empty power list entirely; otherwise append its arrays and take its
payload as the running best when max_power is still unset or strictly
exceeded. The state is (periods, powers, best payload, max_power). -/
def joinStep {α : Type} (st : List ℚ × List PF × Option α × Option PF) (c : ChunkOut α) :
    List ℚ × List PF × Option α × Option PF :=
  if c.power.length = 0 then st
  else
    let tm := maxNonNan c.power
    let upd : Bool := match st.2.2.2 with
      | none => true
      | some mp => PF.gtB tm mp
    (st.1 ++ c.periods, st.2.1 ++ c.power,
     if upd then some c.payload else st.2.2.1,
     if upd then some tm else st.2.2.2)

/-- Merged periodogram record (run_pbls_merge.py lines 143-148). -/
structure MergedResult (α : Type) where
  best : Option α
  periods : List ℚ
  power : List PF

/-- Model of the merge loop and sort of join_tarball_chunks_to_periodogram
(run_pbls_merge.py lines 106-148): fold the chunks in path-sorted order, then
stably sort the concatenated (period, power) pairs by period. -/
def join_tarball_chunks_to_periodogram {α : Type} (chunks : List (ChunkOut α)) :
    MergedResult α :=
  let st := chunks.foldl joinStep ([], [], none, none)
  let pairs := List.insertionSort (fun p q : ℚ × PF => p.1 ≤ q.1) (st.1.zip st.2.1)
  { best := st.2.2.1, periods := pairs.map Prod.fst, power := pairs.map Prod.snd }

/-- Running-maximum fold used by the period loop, seeded with the -inf
sentinel. -/
def pfFoldMax (l : List PF) : PF :=
  l.foldl (fun a s => if PF.gtB s a then s else a) PF.ninf

/-- SNR values of the trials of one period that were actually evaluated
(trials skipped by continue are absent). -/
def periodSnrs (sq : ℚ → ℚ) (time flux : List ℚ) (tmin : ℚ) (polyOrder : ℕ)
    (durations_hr : List ℚ) (epoch_steps : ℕ) (P : ℚ) : List PF :=
  (trialPairs durations_hr epoch_steps P).filterMap
    (fun de => (evalTrial sq time flux tmin polyOrder P de.1 de.2).map TrialOut.snr)

@[simp] theorem PF.gtB_fin_ninf (a : ℚ) : PF.gtB (PF.fin a) PF.ninf = true := rfl

@[simp] theorem PF.gtB_pinf_ninf : PF.gtB PF.pinf PF.ninf = true := rfl

@[simp] theorem PF.gtB_nan_left (x : PF) : PF.gtB PF.nan x = false := by
  cases x <;> rfl

@[simp] theorem PF.gtB_ninf_left (x : PF) : PF.gtB PF.ninf x = false := by
  cases x <;> rfl

@[simp] theorem PF.gtB_fin_fin (a b : ℚ) : PF.gtB (PF.fin a) (PF.fin b) = decide (b < a) := rfl

theorem detFin_eq_det : ∀ (n : ℕ) (A : Matrix (Fin n) (Fin n) ℚ), detFin n A = A.det := by
  intro n
  induction n with
  | zero => intro A; simp [detFin, Matrix.det_fin_zero]
  | succ m ih =>
    intro A
    rw [Matrix.det_succ_row_zero]
    simp only [detFin]
    exact Finset.sum_congr rfl fun j _ => by rw [ih]

theorem linSolve_solves {n : ℕ} (A : Matrix (Fin n) (Fin n) ℚ) (b : Fin n → ℚ)
    (h : detFin n A ≠ 0) : A.mulVec (linSolve A b) = b := by
  have hd : A.det ≠ 0 := by rwa [detFin_eq_det] at h
  have hc : linSolve A b = A.det⁻¹ • A.cramer b := by
    funext i
    simp only [linSolve, if_neg h, Pi.smul_apply, smul_eq_mul, Matrix.cramer_apply,
      detFin_eq_det, if_neg hd]
  rw [hc, Matrix.mulVec_smul, Matrix.mulVec_cramer, smul_smul, inv_mul_cancel₀ hd, one_smul]

/-- While-loop of generate_Jenkins2010_period_grid (period_grids.py lines
128-133) with the per-step increment delta_P = 4(1-min_corr)*duration*P /
total_time rewritten as c*P for the loop-constant c = 4(1-min_corr)*duration /
total_time (exactly equal in the rational model). When the step is not
positive (c <= 0 or P <= 0) the Python loop never terminates; that divergent
branch is modelled by an empty tail and excluded by the hypotheses of every
theorem about this function. -/

theorem chunkStart_succ (N C i : ℕ) :
    chunkStart N C (i + 1) = chunkStart N C i + chunkCount N C i := by
  unfold chunkStart chunkCount
  rw [Nat.succ_mul]
  set b := N / C with hb
  set r := N % C with hr
  set m := i * b with hm
  by_cases h : i < r
  · rw [if_pos h]; omega
  · rw [if_neg h]; omega

theorem chunkStart_zero (N C : ℕ) : chunkStart N C 0 = 0 := by
  unfold chunkStart; simp

theorem chunkStart_total (N C : ℕ) (hC : 1 ≤ C) : chunkStart N C C = N := by
  unfold chunkStart
  have h1 : N % C < C := Nat.mod_lt _ (by omega)
  rw [min_eq_right (le_of_lt h1)]
  exact Nat.div_add_mod N C

theorem chunkStart_le_succ (N C i : ℕ) : chunkStart N C i ≤ chunkStart N C (i + 1) := by
  rw [chunkStart_succ]; omega

theorem chunkStart_mono (N C : ℕ) {i j : ℕ} (h : i ≤ j) :
    chunkStart N C i ≤ chunkStart N C j := by
  induction h with
  | refl => exact le_refl _
  | step h' ih => exact le_trans ih (chunkStart_le_succ N C _)

theorem chunkCount_sum (N C : ℕ) : ∀ m : ℕ,
    ((List.range m).map (chunkCount N C)).sum = chunkStart N C m := by
  intro m
  induction m with
  | zero => simp [chunkStart_zero]
  | succ k ih =>
    rw [List.range_succ, List.map_append, List.sum_append, ih, chunkStart_succ]
    simp

theorem chunk_mem_exists (N C : ℕ) (k : ℕ) : ∀ m : ℕ, k < chunkStart N C m →
    ∃ i, i < m ∧ chunkStart N C i ≤ k ∧ k < chunkStart N C (i + 1) := by
  intro m
  induction m with
  | zero => intro h; rw [chunkStart_zero] at h; omega
  | succ j ih =>
    intro h
    by_cases hj : chunkStart N C j ≤ k
    · exact ⟨j, Nat.lt_succ_self j, hj, h⟩
    · obtain ⟨i, hi, h1, h2⟩ := ih (by omega)
      exact ⟨i, Nat.lt_succ_of_lt hi, h1, h2⟩

/-- C2: for every total period count N and chunk count C >= 1, the chunk
slices of pbls_chunk_pipeline.py (start = i*(N//C) + min(i, N%C), count =
N//C + 1 for i < N%C else N//C) exactly partition range(N): the counts sum to
N and every index k < N lies in exactly one chunk. -/
theorem chunk_partition (N C : ℕ) (hC : 1 ≤ C) :
    (((List.range C).map (chunkCount N C)).sum = N) ∧
    (∀ k, k < N →
      ∃! i, i < C ∧ chunkStart N C i ≤ k ∧ k < chunkStart N C i + chunkCount N C i) := by
  constructor
  · rw [chunkCount_sum, chunkStart_total N C hC]
  · intro k hk
    have hkC : k < chunkStart N C C := by rw [chunkStart_total N C hC]; exact hk
    obtain ⟨i, hi, h1, h2⟩ := chunk_mem_exists N C k C hkC
    refine ⟨i, ⟨hi, h1, by rw [← chunkStart_succ]; exact h2⟩, ?_⟩
    rintro j ⟨hj, hj1, hj2⟩
    rw [← chunkStart_succ] at hj2
    by_contra hne
    rcases Nat.lt_or_ge j i with h' | h'
    · have : chunkStart N C (j + 1) ≤ chunkStart N C i := chunkStart_mono N C h'
      omega
    · have hij : i < j := by omega
      have : chunkStart N C (i + 1) ≤ chunkStart N C j := chunkStart_mono N C hij
      omega

theorem chunk_partition_witness :
    1 ≤ 3 ∧
    ((((List.range 3).map (chunkCount 7 3)).sum = 7) ∧
      (∀ k, k < 7 →
        ∃! i, i < 3 ∧ chunkStart 7 3 i ≤ k ∧ k < chunkStart 7 3 i + chunkCount 7 3 i)) :=
  ⟨by norm_num, chunk_partition 7 3 (by norm_num)⟩

theorem linspace_length (a b : ℚ) (n : ℕ) : (linspace a b n).length = n := by
  unfold linspace
  by_cases h : n = 1
  · simp [h]
  · rw [if_neg h, List.length_map, List.length_range]

/-- C7 (amended): generate_uniformfreq_period_grid performs no input
validation and never fails: it always returns an array of exactly
int(oversample * total_time / cadence) periods (empty whenever that count is
less than 1), also when period_max <= period_min. -/
theorem uniformfreq_length (total_time cadence oversample period_min
    clamp_period_max : ℚ) :
    (generate_uniformfreq_period_grid total_time cadence oversample period_min
      clamp_period_max).length = (intTrunc (oversample * total_time / cadence)).toNat := by
  unfold generate_uniformfreq_period_grid
  rw [List.length_map, List.length_reverse, linspace_length]

/-- C7 counterexample: the claim says the generator fails with InputError when
the computed N_freq is below 1 or when period_max <= period_min; the source
contains no validation at all. With total_time = 1, cadence = 2 the count is
int(1/2) = 0 and an empty array is returned; with total_time = 2, cadence = 1,
period_min = 2 we have period_max = min(1, 50) = 1 <= period_min yet a
2-element array is returned. -/
theorem uniformfreq_no_validation :
    (generate_uniformfreq_period_grid 1 2 1 (1 / 2) 50 = ([] : List ℚ)) ∧
    ((generate_uniformfreq_period_grid 2 1 1 2 50).length = 2 ∧
      min ((2 : ℚ) / 2) 50 ≤ 2) := by
  refine ⟨?_, ?_, by norm_num⟩
  · unfold generate_uniformfreq_period_grid intTrunc
    norm_num [linspace]
  · unfold generate_uniformfreq_period_grid intTrunc
    rw [List.length_map, List.length_reverse]
    norm_num [linspace, show Int.toNat 2 = 2 from rfl]

theorem worker_keyerror (sq : ℚ → ℚ) (time flux : List ℚ) (p : ℚ)
    (durations_hr : List ℚ) (epoch_steps polyOrder : ℕ) :
    worker sq time flux p durations_hr epoch_steps polyOrder
      = Except.error ((r"KeyError: ") ++ (r"duration")) := rfl

/-- C3: the parallel driver is claimed to be result-equivalent to the
sequential engine, but every worker task reads best_params['duration'] while
pbls_search stores the key 'duration_hr' (pbls.py line 251 versus mp_pbls.py
line 14), so every single-period task raises KeyError, pool.map re-raises it,
and fast_pbls_search never returns a result for any input (for an empty
period list np.argmax raises instead). -/
theorem fast_pbls_search_always_fails (sq : ℚ → ℚ) (time flux : List ℚ)
    (periods durations_hr : List ℚ) (epoch_steps polyOrder : ℕ) :
    (fast_pbls_search sq time flux periods durations_hr epoch_steps polyOrder).isOk
      = false := by
  cases periods with
  | nil => rfl
  | cons p ps => rfl

theorem foldTrials_fst (sq : ℚ → ℚ) (time flux : List ℚ) (tmin : ℚ) (polyOrder : ℕ)
    (P : ℚ) : ∀ (l : List (ℚ × ℚ)) (a : PF) (c : Option (List (List ℚ))) (g : GlobalBest),
    (l.foldl (stepTrial sq time flux tmin polyOrder P) (a, c, g)).1
      = (l.filterMap (fun de =>
          (evalTrial sq time flux tmin polyOrder P de.1 de.2).map TrialOut.snr)).foldl
          (fun x s => if PF.gtB s x then s else x) a := by
  intro l
  induction l with
  | nil => intro a c g; rfl
  | cons de rest ih =>
    intro a c g
    rcases h : evalTrial sq time flux tmin polyOrder P de.1 de.2 with _ | o
    · simp only [List.foldl_cons, List.filterMap_cons, h, stepTrial, Option.map_none]
      exact ih a c g
    · simp only [List.foldl_cons, List.filterMap_cons, h, stepTrial, Option.map_some]
      exact ih _ _ _

theorem evalPeriod_fst (sq : ℚ → ℚ) (time flux : List ℚ) (tmin : ℚ) (polyOrder : ℕ)
    (durations_hr : List ℚ) (epoch_steps : ℕ) (g : GlobalBest) (P : ℚ) :
    (evalPeriod sq time flux tmin polyOrder durations_hr epoch_steps g P).1
      = pfFoldMax (periodSnrs sq time flux tmin polyOrder durations_hr epoch_steps P) := by
  unfold evalPeriod pfFoldMax periodSnrs
  exact foldTrials_fst sq time flux tmin polyOrder P _ PF.ninf none g

theorem searchPeriods_power (sq : ℚ → ℚ) (time flux : List ℚ) (tmin : ℚ) (polyOrder : ℕ)
    (durations_hr : List ℚ) (epoch_steps : ℕ) :
    ∀ (Ps : List ℚ) (g : GlobalBest),
    (searchPeriods sq time flux tmin polyOrder durations_hr epoch_steps g Ps).1
      = Ps.map (fun P =>
          pfFoldMax (periodSnrs sq time flux tmin polyOrder durations_hr epoch_steps P)) := by
  intro Ps
  induction Ps with
  | nil => intro g; rfl
  | cons P rest ih =>
    intro g
    simp only [searchPeriods, List.map_cons]
    rw [evalPeriod_fst, ih]

theorem gtB_trans_false {s' a s : PF} (h1 : PF.gtB s' a = false) (h2 : PF.gtB s a = true) :
    PF.gtB s' s = false := by
  cases s' <;> cases a <;> cases s <;>
    simp_all [PF.gtB, decide_eq_true_eq, decide_eq_false_iff_not] <;> linarith

theorem gtB_irrefl (a : PF) : PF.gtB a a = false := by
  cases a <;> simp [PF.gtB]

theorem gtB_nan_right (x : PF) : PF.gtB x PF.nan = false := by
  cases x <;> rfl

theorem gtB_trans_false2 {x a r : PF} (h1 : PF.gtB x a = true) (h2 : PF.gtB x r = false) :
    PF.gtB a r = false := by
  cases x <;> cases a <;> cases r <;>
    simp_all [PF.gtB, decide_eq_true_eq, decide_eq_false_iff_not] <;> linarith

theorem gtB_neg_trans {x a r : PF} (ha : a ≠ PF.nan) (h1 : PF.gtB x a = false)
    (h2 : PF.gtB a r = false) : PF.gtB x r = false := by
  cases x <;> cases a <;> cases r <;>
    simp_all [PF.gtB, decide_eq_true_eq, decide_eq_false_iff_not] <;> linarith

theorem foldMax_nan : ∀ (l : List PF),
    l.foldl (fun x s => if PF.gtB s x then s else x) PF.nan = PF.nan := by
  intro l
  induction l with
  | nil => rfl
  | cons x xs ih =>
    simp only [List.foldl_cons, gtB_nan_right x, Bool.false_eq_true, if_false]
    exact ih

theorem foldMax_seed : ∀ (l : List PF) (a : PF),
    PF.gtB a (l.foldl (fun x s => if PF.gtB s x then s else x) a) = false := by
  intro l
  induction l with
  | nil => intro a; exact gtB_irrefl a
  | cons x xs ih =>
    intro a
    by_cases hx : PF.gtB x a = true
    · simp only [List.foldl_cons, if_pos hx]
      exact gtB_trans_false2 hx (ih x)
    · have hx' : PF.gtB x a = false := by simp_all
      simp only [List.foldl_cons, hx', Bool.false_eq_true, if_false]
      exact ih a

theorem foldMax_spec : ∀ (l : List PF) (a : PF),
    (∀ s ∈ l, PF.gtB s (l.foldl (fun x s => if PF.gtB s x then s else x) a) = false) ∧
    (l.foldl (fun x s => if PF.gtB s x then s else x) a = a ∨
      l.foldl (fun x s => if PF.gtB s x then s else x) a ∈ l) := by
  intro l
  induction l with
  | nil => intro a; exact ⟨fun s hs => absurd hs (List.not_mem_nil s), Or.inl rfl⟩
  | cons x xs ih =>
    intro a
    by_cases hx : PF.gtB x a = true
    · simp only [List.foldl_cons, if_pos hx]
      refine ⟨?_, ?_⟩
      · intro s hs
        rcases List.mem_cons.mp hs with rfl | hs
        · exact foldMax_seed xs s
        · exact (ih x).1 s hs
      · rcases (ih x).2 with heq | hmem
        · exact Or.inr (by rw [heq]; exact List.mem_cons_self x xs)
        · exact Or.inr (List.mem_cons_of_mem x hmem)
    · have hx' : PF.gtB x a = false := by simp_all
      simp only [List.foldl_cons, hx', Bool.false_eq_true, if_false]
      refine ⟨?_, ?_⟩
      · intro s hs
        rcases List.mem_cons.mp hs with rfl | hs
        · by_cases ha : a = PF.nan
          · subst ha
            rw [foldMax_nan xs]
            exact gtB_nan_right s
          · exact gtB_neg_trans ha hx' (foldMax_seed xs a)
        · exact (ih a).1 s hs
      · rcases (ih a).2 with heq | hmem
        · exact Or.inl heq
        · exact Or.inr (List.mem_cons_of_mem x hmem)

/-- C1: pbls_search returns one power entry per trial period, in the order of
the input periods array (as a map over it, so nothing is dropped or
reordered), and each entry is the running maximum, seeded with the -inf
sentinel, of the SNRs of all duration-epoch trials evaluated at that period;
the fold is a true maximum: no trial SNR compares greater than it, and it is
either the -inf seed or one of the trial SNRs. -/
theorem pbls_search_power_per_period (sq : ℚ → ℚ) (time flux periods durations_hr : List ℚ)
    (epoch_steps polyOrder : ℕ) :
    ((pbls_search sq time flux periods durations_hr epoch_steps polyOrder).power.length
       = periods.length) ∧
    ((pbls_search sq time flux periods durations_hr epoch_steps polyOrder).power
       = periods.map (fun P => pfFoldMax (periodSnrs sq
           ((sortedPairs time flux).map Prod.fst) ((sortedPairs time flux).map Prod.snd)
           (npMin time) polyOrder durations_hr epoch_steps P))) ∧
    (∀ l : List PF, (∀ s ∈ l, PF.gtB s (pfFoldMax l) = false) ∧
      (pfFoldMax l = PF.ninf ∨ pfFoldMax l ∈ l)) := by
  have hpow : (pbls_search sq time flux periods durations_hr epoch_steps polyOrder).power
      = periods.map (fun P => pfFoldMax (periodSnrs sq
          ((sortedPairs time flux).map Prod.fst) ((sortedPairs time flux).map Prod.snd)
          (npMin time) polyOrder durations_hr epoch_steps P)) := by
    simp only [pbls_search, searchFromSorted]
    exact searchPeriods_power sq _ _ _ _ _ _ periods initGlobal
  refine ⟨by rw [hpow, List.length_map], hpow, ?_⟩
  intro l
  exact ⟨(foldMax_spec l PF.ninf).1, (foldMax_spec l PF.ninf).2⟩

theorem pbls_search_power_per_period_witness :
    (pbls_search (fun _ => 1) [0] [1] [1] [1] 1 2).power.length = [(1 : ℚ)].length :=
  (pbls_search_power_per_period (fun _ => 1) [0] [1] [1] [1] 1 2).1

theorem foldTrials_all_skip (sq : ℚ → ℚ) (time flux : List ℚ) (tmin : ℚ)
    (polyOrder : ℕ) (P : ℚ) :
    ∀ (l : List (ℚ × ℚ)) (st : PF × Option (List (List ℚ)) × GlobalBest),
    (∀ de ∈ l, evalTrial sq time flux tmin polyOrder P de.1 de.2 = none) →
    l.foldl (stepTrial sq time flux tmin polyOrder P) st = st := by
  intro l
  induction l with
  | nil => intro st _; rfl
  | cons de rest ih =>
    intro st h
    rw [List.foldl_cons]
    have hde : evalTrial sq time flux tmin polyOrder P de.1 de.2 = none :=
      h de (List.mem_cons_self de rest)
    have hs : stepTrial sq time flux tmin polyOrder P st de = st := by
      simp [stepTrial, hde]
    rw [hs]
    exact ih st (fun x hx => h x (List.mem_cons_of_mem de hx))

/-- C6: a trial with zero windows satisfying the good-transit rule is skipped:
evalTrial yields none, its fold step leaves both the period-level state and
the global best untouched, removing it from a trial sequence does not change
the fold (the search just continues), and a period all of whose trials are
skipped keeps the -inf power sentinel and leaves the global best unchanged. -/
theorem trial_no_good_transits (sq : ℚ → ℚ) (time flux : List ℚ) (tmin : ℚ)
    (polyOrder : ℕ) (P d e : ℚ) :
    (goodTransitList time tmin P d e polyOrder = [] →
      evalTrial sq time flux tmin polyOrder P d e = none) ∧
    (evalTrial sq time flux tmin polyOrder P d e = none →
      ∀ st : PF × Option (List (List ℚ)) × GlobalBest,
        stepTrial sq time flux tmin polyOrder P st (d, e) = st) ∧
    (evalTrial sq time flux tmin polyOrder P d e = none →
      ∀ (l1 l2 : List (ℚ × ℚ)) (st : PF × Option (List (List ℚ)) × GlobalBest),
        (l1 ++ (d, e) :: l2).foldl (stepTrial sq time flux tmin polyOrder P) st
          = (l1 ++ l2).foldl (stepTrial sq time flux tmin polyOrder P) st) ∧
    (∀ (g : GlobalBest) (durations_hr : List ℚ) (epoch_steps : ℕ),
      (∀ de ∈ trialPairs durations_hr epoch_steps P,
        evalTrial sq time flux tmin polyOrder P de.1 de.2 = none) →
      (evalPeriod sq time flux tmin polyOrder durations_hr epoch_steps g P).1 = PF.ninf ∧
      (evalPeriod sq time flux tmin polyOrder durations_hr epoch_steps g P).2.2 = g) := by
  have hstep : evalTrial sq time flux tmin polyOrder P d e = none →
      ∀ st : PF × Option (List (List ℚ)) × GlobalBest,
        stepTrial sq time flux tmin polyOrder P st (d, e) = st := by
    intro h st
    simp [stepTrial, h]
  refine ⟨?_, hstep, ?_, ?_⟩
  · intro h
    unfold evalTrial
    rw [h]
    simp
  · intro h l1 l2 st
    rw [List.foldl_append, List.foldl_append, List.foldl_cons, hstep h]
  · intro g durations_hr epoch_steps h
    have : (trialPairs durations_hr epoch_steps P).foldl
        (stepTrial sq time flux tmin polyOrder P) (PF.ninf, none, g) = (PF.ninf, none, g) :=
      foldTrials_all_skip sq time flux tmin polyOrder P _ _ h
    unfold evalPeriod
    rw [this]
    exact ⟨rfl, rfl⟩

theorem trial_no_good_transits_witness :
    (goodTransitList [] 0 1 (1 / 2) 0 0 = []) ∧
    (evalTrial (fun _ => 1) [] [] 0 0 1 (1 / 2) 0 = none) :=
  ⟨rfl, (trial_no_good_transits (fun _ => 1) [] [] 0 0 1 (1 / 2) 0).1 rfl⟩

theorem sortedPairs_length (time flux : List ℚ) :
    (sortedPairs time flux).length = min time.length flux.length := by
  unfold sortedPairs
  rw [(List.perm_insertionSort _ _).length_eq, List.length_zip]

theorem localIdxList_le (time : List ℚ) (tmin P d e : ℚ) :
    (localIdxList time tmin P d e).length ≤ time.length := by
  unfold localIdxList
  exact le_trans (List.length_filter_le _ _) (le_of_eq (List.length_range _))

theorem evalTrial_short (sq : ℚ → ℚ) (time flux : List ℚ) (tmin : ℚ) (polyOrder : ℕ)
    (P d e : ℚ) (h : time.length < polyOrder + 1) :
    evalTrial sq time flux tmin polyOrder P d e = none := by
  unfold evalTrial
  rw [if_pos (lt_of_le_of_lt (localIdxList_le time tmin P d e) h)]

theorem searchPeriods_all_skip (sq : ℚ → ℚ) (time flux : List ℚ) (tmin : ℚ)
    (polyOrder : ℕ) (durations_hr : List ℚ) (epoch_steps : ℕ)
    (h : ∀ (P d e : ℚ), evalTrial sq time flux tmin polyOrder P d e = none) :
    ∀ (Ps : List ℚ) (g : GlobalBest),
    searchPeriods sq time flux tmin polyOrder durations_hr epoch_steps g Ps
      = (Ps.map (fun _ => PF.ninf), Ps.map (fun _ => none), g) := by
  intro Ps
  induction Ps with
  | nil => intro g; rfl
  | cons P rest ih =>
    intro g
    have hev : evalPeriod sq time flux tmin polyOrder durations_hr epoch_steps g P
        = (PF.ninf, none, g) := by
      unfold evalPeriod
      exact foldTrials_all_skip sq time flux tmin polyOrder P _ _ (fun de _ => h P de.1 de.2)
    simp only [searchPeriods, hev, ih g, List.map_cons]

/-- C9 (amended): pbls_search performs no input validation, so a nonempty time
series (with flux of the same length) that is shorter than 2*(poly_order + 1)
points does not raise InputError; in particular with fewer than poly_order + 1
points every trial is skipped, so the call completes normally and returns a
SearchResult whose power entries are all the -inf sentinel, whose best
parameters are all None with -inf SNR, and whose best model is None. The
nonemptiness hypothesis excludes the one aborting input in this domain, the
empty series, where np.min(time) at pbls.py line 116 raises ValueError (still
not the InputError the claim promises). -/
theorem pbls_search_short_series_returns (sq : ℚ → ℚ)
    (time flux periods durations_hr : List ℚ) (epoch_steps polyOrder : ℕ)
    (hne : time ≠ []) (hfl : time.length = flux.length)
    (h : time.length < polyOrder + 1) :
    ((pbls_search sq time flux periods durations_hr epoch_steps polyOrder).power
        = periods.map (fun _ => PF.ninf)) ∧
    ((pbls_search sq time flux periods durations_hr epoch_steps polyOrder).best_params
        = { period := none, duration_hr := none, epoch := none, depth := none,
            snr := PF.ninf }) ∧
    ((pbls_search sq time flux periods durations_hr epoch_steps polyOrder).best_model
        = none) := by
  have hlen : ((sortedPairs time flux).map Prod.fst).length < polyOrder + 1 := by
    rw [List.length_map, sortedPairs_length]
    omega
  have hall : ∀ (P d e : ℚ),
      evalTrial sq ((sortedPairs time flux).map Prod.fst)
        ((sortedPairs time flux).map Prod.snd) (npMin time) polyOrder P d e = none :=
    fun P d e => evalTrial_short _ _ _ _ _ P d e hlen
  have hsp := searchPeriods_all_skip sq ((sortedPairs time flux).map Prod.fst)
    ((sortedPairs time flux).map Prod.snd) (npMin time) polyOrder durations_hr epoch_steps
    hall periods initGlobal
  refine ⟨?_, ?_, ?_⟩ <;> (simp only [pbls_search, searchFromSorted, hsp]; try rfl)

theorem pbls_search_short_series_returns_witness :
    (([(0 : ℚ)] : List ℚ) ≠ [] ∧ ([(0 : ℚ)] : List ℚ).length = ([(1 : ℚ)] : List ℚ).length ∧
      (1 : ℕ) < 2 + 1) ∧
    (pbls_search (fun _ => 1) [0] [1] [1] [1] 1 2).power = [(1 : ℚ)].map (fun _ => PF.ninf) :=
  ⟨⟨List.cons_ne_nil 0 [], rfl, by norm_num⟩,
    (pbls_search_short_series_returns (fun _ => 1) [0] [1] [1] [1] 1 2
      (List.cons_ne_nil 0 []) rfl (by norm_num)).1⟩

/-- C9 counterexample: the claim says a series shorter than 2*(poly_order+1)
points makes pbls_search raise InputError; with poly_order = 2 and the 2-point
series time = [0,1] (2 < 6) the call completes and returns a SearchResult
(all trials skipped: power = [-inf], best_model = None) - no exception path
exists in the source. -/
theorem pbls_search_short_counterexample :
    ((2 : ℕ) < 2 * (2 + 1)) ∧
    (pbls_search (fun _ => 1) [0, 1] [1, 1] [1] [12] 1 2).power = [PF.ninf] ∧
    (pbls_search (fun _ => 1) [0, 1] [1, 1] [1] [12] 1 2).best_model = none := by
  have hrel0 : relPhase 0 1 (1 / 2) 0 0 = -(1 / 4) := by
    norm_num [relPhase, qmod, qround]
  have hrel1 : relPhase 0 1 (1 / 2) 0 1 = -(1 / 4) := by
    norm_num [relPhase, qmod, qround]
  have hli : localIdxList [0, 1] 0 1 (1 / 2) 0 = [0, 1] := by
    norm_num [localIdxList, List.range_succ, List.filter_append, List.filter_cons,
      hrel0, hrel1, abs]
  have hev : evalTrial (fun _ => (1 : ℚ)) [0, 1] [1, 1] 0 2 1 (1 / 2) 0 = none := by
    unfold evalTrial
    rw [hli]
    norm_num
  have hsp : sortedPairs [0, 1] [1, 1] = [(0, 1), (1, 1)] := by
    norm_num [sortedPairs, List.insertionSort, List.orderedInsert]
  have htmin : npMin [0, 1] = 0 := by
    norm_num [npMin, min_def]
  have htp : trialPairs [12] 1 1 = [(1 / 2, 0)] := by
    norm_num [trialPairs, linspace]
  have hep : evalPeriod (fun _ => (1 : ℚ)) [0, 1] [1, 1] 0 2 [12] 1 initGlobal 1
      = (PF.ninf, none, initGlobal) := by
    unfold evalPeriod
    rw [htp, List.foldl_cons]
    have hst : stepTrial (fun _ => (1 : ℚ)) [0, 1] [1, 1] 0 2 1
        (PF.ninf, none, initGlobal) (1 / 2, 0) = (PF.ninf, none, initGlobal) := by
      simp [stepTrial, hev, -one_div]
    rw [hst, List.foldl_nil]
  refine ⟨by norm_num, ?_, ?_⟩ <;>
  · simp only [pbls_search, searchFromSorted, hsp, htmin, List.map_cons, List.map_nil,
      searchPeriods, hep]
    try rfl

theorem outFluxVec_congr (fLoc1 fLoc2 : List ℚ) (outIdx : List ℕ)
    (h : ∀ k ∈ outIdx, fLoc1.getD k 0 = fLoc2.getD k 0) :
    outFluxVec fLoc1 outIdx = outFluxVec fLoc2 outIdx := by
  funext i
  exact h (outIdx.get i) (List.get_mem outIdx i.1 i.2)

/-- C5: for every good transit window the local trend model of detrend_segment
is the least-squares polynomial of the stated degree on the Vandermonde design
matrix of the out-of-transit points only: the computed coefficients satisfy
the ridge-regularised normal equations (V^T V + 1e-8*I) c = V^T f_out whenever
that matrix is nonsingular, the polynomial is evaluated on every point of the
local window, the residual equals flux minus model, the model never depends
on the in-transit flux values (any two flux vectors agreeing out of transit
give the same model), and the engine (fitSegment) invokes detrend_segment on
abscissae shifted by the out-of-transit median time. -/
theorem detrend_segment_spec (tLoc fLoc1 fLoc2 : List ℚ) (outIdx : List ℕ)
    (polyOrder : ℕ)
    (hdet : detFin (polyOrder + 1) (normalEqMat tLoc outIdx polyOrder) ≠ 0)
    (hagree : ∀ k ∈ outIdx, fLoc1.getD k 0 = fLoc2.getD k 0) :
    (∃ c : Fin (polyOrder + 1) → ℚ,
      ((detrend_segment tLoc fLoc1 outIdx polyOrder).2.2 = List.ofFn c) ∧
      ((normalEqMat tLoc outIdx polyOrder).mulVec c
          = (vandermondeOut tLoc outIdx polyOrder).transpose.mulVec
              (outFluxVec fLoc1 outIdx)) ∧
      ((detrend_segment tLoc fLoc1 outIdx polyOrder).1
          = tLoc.map (fun x => ∑ j : Fin (polyOrder + 1), c j * x ^ (polyOrder - (j : ℕ))))) ∧
    ((detrend_segment tLoc fLoc1 outIdx polyOrder).2.1
        = List.zipWith (fun f m => f - m) fLoc1 (detrend_segment tLoc fLoc1 outIdx polyOrder).1) ∧
    ((detrend_segment tLoc fLoc2 outIdx polyOrder).1
        = (detrend_segment tLoc fLoc1 outIdx polyOrder).1) ∧
    (∀ (time flux : List ℚ) (g : List ℕ × List ℕ),
      (fitSegment time flux polyOrder g).mval
        = (detrend_segment
            ((g.1.map (fun i => time.getD i 0)).map (fun t => t -
              npMedian ((outLocalList g.1 g.2).map
                (fun j => (g.1.map (fun i => time.getD i 0)).getD j 0))))
            (g.1.map (fun i => flux.getD i 0)) (outLocalList g.1 g.2) polyOrder).1) := by
  refine ⟨⟨linSolve (normalEqMat tLoc outIdx polyOrder)
      ((vandermondeOut tLoc outIdx polyOrder).transpose.mulVec (outFluxVec fLoc1 outIdx)),
      rfl, linSolve_solves _ _ hdet, rfl⟩, rfl, ?_, fun time flux g => rfl⟩
  unfold detrend_segment
  rw [outFluxVec_congr fLoc1 fLoc2 outIdx hagree]

theorem detrend_segment_spec_witness :
    (detFin (0 + 1) (normalEqMat [0] [0] 0) ≠ 0) ∧
    ((∃ c : Fin (0 + 1) → ℚ,
      ((detrend_segment [0] [5] [0] 0).2.2 = List.ofFn c) ∧
      ((normalEqMat [0] [0] 0).mulVec c
          = (vandermondeOut [0] [0] 0).transpose.mulVec (outFluxVec [5] [0])) ∧
      ((detrend_segment [0] [5] [0] 0).1
          = [0].map (fun x => ∑ j : Fin (0 + 1), c j * x ^ (0 - (j : ℕ))))) ∧
    ((detrend_segment [0] [5] [0] 0).2.1
        = List.zipWith (fun f m => f - m) [5] (detrend_segment [0] [5] [0] 0).1) ∧
    ((detrend_segment [0] [5] [0] 0).1 = (detrend_segment [0] [5] [0] 0).1) ∧
    (∀ (time flux : List ℚ) (g : List ℕ × List ℕ),
      (fitSegment time flux 0 g).mval
        = (detrend_segment
            ((g.1.map (fun i => time.getD i 0)).map (fun t => t -
              npMedian ((outLocalList g.1 g.2).map
                (fun j => (g.1.map (fun i => time.getD i 0)).getD j 0))))
            (g.1.map (fun i => flux.getD i 0)) (outLocalList g.1 g.2) 0).1)) := by
  have hdet : detFin (0 + 1) (normalEqMat [0] [0] 0) ≠ 0 := by
    simp only [detFin, Fin.sum_univ_one, normalEqMat, vandermondeOut, Matrix.add_apply,
      Matrix.mul_apply, Matrix.transpose_apply, Matrix.smul_apply, Matrix.one_apply_eq,
      Matrix.of_apply, Fin.isValue]
    norm_num [Fin.sum_univ_succ, Fin.sum_univ_zero, Matrix.one_apply]
  exact ⟨hdet, detrend_segment_spec [0] [5] [5] [0] 0 hdet (fun k _ => rfl)⟩

theorem joinStep_skip {α : Type} (st : List ℚ × List PF × Option α × Option PF)
    (c : ChunkOut α) (hc : c.power.length = 0) : joinStep st c = st := by
  unfold joinStep
  rw [if_pos hc]

theorem joinStep_none {α : Type} (st : List ℚ × List PF × Option α × Option PF)
    (c : ChunkOut α) (hc : ¬c.power.length = 0) (h : st.2.2.2 = none) :
    joinStep st c
      = (st.1 ++ c.periods, st.2.1 ++ c.power, some c.payload, some (maxNonNan c.power)) := by
  unfold joinStep
  rw [if_neg hc]
  simp only [h, if_true]

theorem joinStep_some_true {α : Type} (st : List ℚ × List PF × Option α × Option PF)
    (c : ChunkOut α) (mp : PF) (hc : ¬c.power.length = 0) (h : st.2.2.2 = some mp)
    (hupd : PF.gtB (maxNonNan c.power) mp = true) :
    joinStep st c
      = (st.1 ++ c.periods, st.2.1 ++ c.power, some c.payload, some (maxNonNan c.power)) := by
  unfold joinStep
  rw [if_neg hc]
  simp only [h, hupd, if_true]

theorem joinStep_some_false {α : Type} (st : List ℚ × List PF × Option α × Option PF)
    (c : ChunkOut α) (mp : PF) (hc : ¬c.power.length = 0) (h : st.2.2.2 = some mp)
    (hupd : PF.gtB (maxNonNan c.power) mp = false) :
    joinStep st c = (st.1 ++ c.periods, st.2.1 ++ c.power, st.2.2.1, st.2.2.2) := by
  unfold joinStep
  rw [if_neg hc]
  simp only [h, hupd, Bool.false_eq_true, if_false]

theorem join_fold_inv {α : Type} : ∀ (chunks : List (ChunkOut α)),
    (((chunks.foldl joinStep ([], [], none, none)).2.2.2 = none ∧
      (chunks.foldl joinStep ([], [], none, none)).2.2.1 = none ∧
      ∀ c ∈ chunks, c.power = []) ∨
     (∃ c ∈ chunks, c.power ≠ [] ∧
        (chunks.foldl joinStep ([], [], none, none)).2.2.1 = some c.payload ∧
        (chunks.foldl joinStep ([], [], none, none)).2.2.2 = some (maxNonNan c.power) ∧
        ∀ c' ∈ chunks, c'.power ≠ [] →
          PF.gtB (maxNonNan c'.power) (maxNonNan c.power) = false)) ∧
    ((chunks.foldl joinStep ([], [], none, none)).1.length
      = ((chunks.filter (fun c => !c.power.isEmpty)).map (fun c => c.periods.length)).sum) ∧
    ((chunks.foldl joinStep ([], [], none, none)).2.1.length
      = ((chunks.filter (fun c => !c.power.isEmpty)).map (fun c => c.power.length)).sum) := by
  intro chunks
  induction chunks using List.reverseRecOn with
  | nil => exact ⟨Or.inl ⟨rfl, rfl, fun c hc => absurd hc (List.not_mem_nil c)⟩, rfl, rfl⟩
  | append_singleton l c ih =>
    obtain ⟨ihb, ihp, ihw⟩ := ih
    rw [List.foldl_append, List.foldl_cons, List.foldl_nil]
    set st := l.foldl joinStep (([], [], none, none) :
      List ℚ × List PF × Option α × Option PF) with hst
    by_cases hc : c.power.length = 0
    · have hcp : c.power = [] := List.length_eq_zero.mp hc
      rw [joinStep_skip st c hc]
      have hfil : (l ++ [c]).filter (fun x => !x.power.isEmpty)
          = l.filter (fun x => !x.power.isEmpty) := by
        rw [List.filter_append]
        simp [hcp]
      refine ⟨?_, by rw [hfil]; exact ihp, by rw [hfil]; exact ihw⟩
      rcases ihb with ⟨h1, h2, h3⟩ | ⟨c0, hc0, hne, hb, hm, hall⟩
      · refine Or.inl ⟨h1, h2, fun x hx => ?_⟩
        rcases List.mem_append.mp hx with hx | hx
        · exact h3 x hx
        · rw [List.mem_singleton.mp hx]; exact hcp
      · refine Or.inr ⟨c0, List.mem_append_left _ hc0, hne, hb, hm, ?_⟩
        intro c' hc' hne'
        rcases List.mem_append.mp hc' with hx | hx
        · exact hall c' hx hne'
        · rw [List.mem_singleton.mp hx] at hne'
          exact absurd hcp hne'
    · have hcp : c.power ≠ [] := fun h => hc (by rw [h]; rfl)
      have hfil : (l ++ [c]).filter (fun x => !x.power.isEmpty)
          = l.filter (fun x => !x.power.isEmpty) ++ [c] := by
        rw [List.filter_append]
        have hie : c.power.isEmpty = false := by
          cases hp : c.power with
          | nil => exact absurd hp hcp
          | cons a as => rfl
        simp [hie]
      rcases ihb with ⟨h1, h2, h3⟩ | ⟨c0, hc0, hne, hb, hm, hall⟩
      · rw [joinStep_none st c hc h1]
        refine ⟨Or.inr ⟨c, List.mem_append_right _ (List.mem_singleton_self c), hcp,
          rfl, rfl, ?_⟩, ?_, ?_⟩
        · intro c' hc' hne'
          rcases List.mem_append.mp hc' with hx | hx
          · exact absurd (h3 c' hx) hne'
          · rw [List.mem_singleton.mp hx]
            exact gtB_irrefl _
        · rw [List.length_append, ihp, hfil, List.map_append, List.sum_append]
          simp
        · rw [List.length_append, ihw, hfil, List.map_append, List.sum_append]
          simp
      · by_cases hupd : PF.gtB (maxNonNan c.power) (maxNonNan c0.power) = true
        · rw [joinStep_some_true st c (maxNonNan c0.power) hc hm hupd]
          refine ⟨Or.inr ⟨c, List.mem_append_right _ (List.mem_singleton_self c), hcp,
            rfl, rfl, ?_⟩, ?_, ?_⟩
          · intro c' hc' hne'
            rcases List.mem_append.mp hc' with hx | hx
            · exact gtB_trans_false (hall c' hx hne') hupd
            · rw [List.mem_singleton.mp hx]
              exact gtB_irrefl _
          · rw [List.length_append, ihp, hfil, List.map_append, List.sum_append]
            simp
          · rw [List.length_append, ihw, hfil, List.map_append, List.sum_append]
            simp
        · have hupd' : PF.gtB (maxNonNan c.power) (maxNonNan c0.power) = false := by
            simp_all
          rw [joinStep_some_false st c (maxNonNan c0.power) hc hm hupd']
          refine ⟨Or.inr ⟨c0, List.mem_append_left _ hc0, hne, hb, hm, ?_⟩, ?_, ?_⟩
          · intro c' hc' hne'
            rcases List.mem_append.mp hc' with hx | hx
            · exact hall c' hx hne'
            · rw [List.mem_singleton.mp hx]
              exact hupd'
          · rw [List.length_append, ihp, hfil, List.map_append, List.sum_append]
            simp
          · rw [List.length_append, ihw, hfil, List.map_append, List.sum_append]
            simp

/-- C4 (amended): the Merger selects BestModel by this_max_power, defined as
the maximum of the non-NaN power entries of a chunk (-inf entries are NOT
ignored) or the float 0 when every entry is NaN, with strict greater-than so
the earliest maximal chunk in sorted-path order wins; chunks with an empty
power array are skipped entirely; if every chunk has an empty power array (or
there are none) no BestModel is produced. In particular an all-NaN chunk
scores 0 and CAN be selected over a finite-valued chunk (see the
counterexample), contrary to the original claim. Every processed chunk
contributes all its periodogram entries to the merged power array. -/
theorem merge_best_model_selection {α : Type} (chunks : List (ChunkOut α))
    (hlen : ∀ c ∈ chunks, c.periods.length = c.power.length) :
    ((∀ c ∈ chunks, c.power = []) →
      (join_tarball_chunks_to_periodogram chunks).best = none) ∧
    ((∃ c ∈ chunks, c.power ≠ []) →
      ∃ c ∈ chunks, c.power ≠ [] ∧
        (join_tarball_chunks_to_periodogram chunks).best = some c.payload ∧
        ∀ c' ∈ chunks, c'.power ≠ [] →
          PF.gtB (maxNonNan c'.power) (maxNonNan c.power) = false) ∧
    ((join_tarball_chunks_to_periodogram chunks).power.length
      = ((chunks.filter (fun c => !c.power.isEmpty)).map (fun c => c.power.length)).sum) := by
  obtain ⟨hb, hp, hw⟩ := join_fold_inv chunks
  have hbest : (join_tarball_chunks_to_periodogram chunks).best
      = (chunks.foldl joinStep ([], [], none, none)).2.2.1 := rfl
  refine ⟨?_, ?_, ?_⟩
  · intro hall
    rcases hb with ⟨_, h2, _⟩ | ⟨c, hcmem, hcne, _⟩
    · rw [hbest, h2]
    · exact absurd (hall c hcmem) hcne
  · rintro ⟨c, hcmem, hcne⟩
    rcases hb with ⟨_, _, h3⟩ | ⟨c0, hc0, hne, hbp, _, hall⟩
    · exact absurd (h3 c hcmem) hcne
    · exact ⟨c0, hc0, hne, by rw [hbest, hbp], hall⟩
  · have hsum : ((chunks.filter (fun c => !c.power.isEmpty)).map
        (fun c => c.periods.length)).sum
        = ((chunks.filter (fun c => !c.power.isEmpty)).map (fun c => c.power.length)).sum := by
      have : ∀ c ∈ chunks.filter (fun c => !c.power.isEmpty),
          c.periods.length = c.power.length :=
        fun c hc => hlen c (List.mem_of_mem_filter hc)
      rw [List.map_congr_left this]
    have hplen : (join_tarball_chunks_to_periodogram chunks).power.length
        = min (chunks.foldl joinStep ([], [], none, none)).1.length
            (chunks.foldl joinStep ([], [], none, none)).2.1.length := by
      show (List.map Prod.snd (List.insertionSort _ _)).length = _
      rw [List.length_map, (List.perm_insertionSort _ _).length_eq, List.length_zip]
    rw [hplen, hp, hw, hsum, min_self]

theorem merge_best_model_selection_witness :
    (∀ c ∈ [ChunkOut.mk [PF.fin 3] [1] (0 : ℕ)], c.periods.length = c.power.length) ∧
    ((∃ c ∈ [ChunkOut.mk [PF.fin 3] [1] (0 : ℕ)], c.power ≠ []) →
      ∃ c ∈ [ChunkOut.mk [PF.fin 3] [1] (0 : ℕ)], c.power ≠ [] ∧
        (join_tarball_chunks_to_periodogram
          [ChunkOut.mk [PF.fin 3] [1] (0 : ℕ)]).best = some c.payload ∧
        ∀ c' ∈ [ChunkOut.mk [PF.fin 3] [1] (0 : ℕ)], c'.power ≠ [] →
          PF.gtB (maxNonNan c'.power) (maxNonNan c.power) = false) :=
  ⟨by simp, (merge_best_model_selection [ChunkOut.mk [PF.fin 3] [1] (0 : ℕ)]
    (by simp)).2.1⟩

/-- C4 counterexample: merging chunk A = (power [-5.0], periods [1]) with
chunk B = (power [NaN], periods [2]) selects B as the BestModel source: B's
entirely non-NaN-filtered score is the float 0, which strictly exceeds A's
finite maximum -5, so a chunk with no finite power value wins over a
finite-valued one and a BestModel is produced where the claim says the chunk
must never be selected. -/
theorem merge_nonfinite_selected_counterexample :
    ((join_tarball_chunks_to_periodogram
        [ChunkOut.mk [PF.fin (-5)] [1] (0 : ℕ), ChunkOut.mk [PF.nan] [2] 1]).best
      = some 1) ∧
    (∀ p ∈ (ChunkOut.mk [PF.nan] [2] (1 : ℕ)).power, p.isNanB = true) ∧
    ((ChunkOut.mk [PF.fin (-5)] [1] (0 : ℕ)).power.all (fun p => !p.isNanB) = true) := by
  have hmaxA : maxNonNan [PF.fin (-5)] = PF.fin (-5) := by
    norm_num [maxNonNan, PF.isNanB]
  have hmaxB : maxNonNan [PF.nan] = PF.fin 0 := by
    norm_num [maxNonNan, PF.isNanB]
  have hA : joinStep (([], [], none, none) : List ℚ × List PF × Option ℕ × Option PF)
      (ChunkOut.mk [PF.fin (-5)] [1] 0)
      = ([1], [PF.fin (-5)], some 0, some (PF.fin (-5))) := by
    rw [joinStep_none _ _ (by norm_num) rfl]
    simp [hmaxA]
  have hB : joinStep (([1], [PF.fin (-5)], some 0, some (PF.fin (-5))) :
      List ℚ × List PF × Option ℕ × Option PF) (ChunkOut.mk [PF.nan] [2] 1)
      = ([1, 2], [PF.fin (-5), PF.nan], some 1, some (PF.fin 0)) := by
    rw [joinStep_some_true _ _ (PF.fin (-5)) (by norm_num) rfl
      (by rw [hmaxB]; norm_num [PF.gtB])]
    simp [hmaxB]
  refine ⟨?_, by intro p hp; rw [List.mem_singleton.mp hp]; rfl, rfl⟩
  show (List.foldl joinStep ([], [], none, none)
    [ChunkOut.mk [PF.fin (-5)] [1] (0 : ℕ), ChunkOut.mk [PF.nan] [2] 1]).2.2.1 = some 1
  rw [List.foldl_cons, hA, List.foldl_cons, hB, List.foldl_nil]

theorem foldl_min_le_init : ∀ (xs : List ℚ) (a : ℚ), xs.foldl min a ≤ a := by
  intro xs
  induction xs with
  | nil => intro a; exact le_refl a
  | cons x xs ih => intro a; exact le_trans (ih (min a x)) (min_le_left a x)

theorem foldl_min_le_mem : ∀ (xs : List ℚ) (a : ℚ), ∀ x ∈ xs, xs.foldl min a ≤ x := by
  intro xs
  induction xs with
  | nil => intro a x hx; exact absurd hx (List.not_mem_nil x)
  | cons y ys ih =>
    intro a x hx
    rcases List.mem_cons.mp hx with rfl | hx
    · exact le_trans (foldl_min_le_init ys (min a x)) (min_le_right a x)
    · exact ih (min a y) x hx

theorem foldl_min_mem : ∀ (xs : List ℚ) (a : ℚ), xs.foldl min a = a ∨ xs.foldl min a ∈ xs := by
  intro xs
  induction xs with
  | nil => intro a; exact Or.inl rfl
  | cons y ys ih =>
    intro a
    rcases ih (min a y) with heq | hmem
    · rw [List.foldl_cons, heq]
      rcases min_choice a y with h | h
    
      · exact Or.inl h
      · exact Or.inr (by rw [h]; exact List.mem_cons_self y ys)
    · exact Or.inr (List.mem_cons_of_mem y hmem)

theorem npMin_mem : ∀ (l : List ℚ), l ≠ [] → npMin l ∈ l := by
  intro l hl
  cases l with
  | nil => exact absurd rfl hl
  | cons x xs =>
    rcases foldl_min_mem xs x with heq | hmem
    · rw [npMin, heq]; exact List.mem_cons_self x xs
    · exact List.mem_cons_of_mem x hmem

theorem npMin_le : ∀ (l : List ℚ), ∀ x ∈ l, npMin l ≤ x := by
  intro l x hx
  cases l with
  | nil => exact absurd hx (List.not_mem_nil x)
  | cons y ys =>
    rcases List.mem_cons.mp hx with rfl | hx
    · exact foldl_min_le_init ys x
    · exact foldl_min_le_mem ys y x hx

theorem npMin_perm {l1 l2 : List ℚ} (h : l1.Perm l2) : npMin l1 = npMin l2 := by
  cases l1 with
  | nil =>
    have : l2 = [] := h.nil_eq.symm
    rw [this]
  | cons x xs =>
    have hne1 : (x :: xs) ≠ [] := List.cons_ne_nil x xs
    have hne2 : l2 ≠ [] := by
      intro he
      rw [he] at h
      exact absurd h.eq_nil (List.cons_ne_nil x xs)
    refine le_antisymm ?_ ?_
    · exact npMin_le _ _ (h.mem_iff.mpr (npMin_mem l2 hne2))
    · exact npMin_le _ _ (h.mem_iff.mp (npMin_mem _ hne1))

theorem pairwise_lt_of_sorted_nodup : ∀ (l : List (ℚ × ℚ)),
    l.Pairwise (fun p q => p.1 ≤ q.1) → (l.map Prod.fst).Nodup →
    l.Pairwise (fun p q => p.1 < q.1) := by
  intro l
  induction l with
  | nil => intro _ _; exact List.Pairwise.nil
  | cons p ps ih =>
    intro hs hn
    rw [List.map_cons, List.nodup_cons] at hn
    rw [List.pairwise_cons] at hs ⊢
    refine ⟨fun q hq => lt_of_le_of_ne (hs.1 q hq) ?_, ih hs.2 hn.2⟩
    intro he
    exact hn.1 (he ▸ List.mem_map_of_mem Prod.fst hq)

theorem sortedPairs_perm_eq (time1 flux1 time2 flux2 : List ℚ)
    (hl1 : time1.length = flux1.length) (hl2 : time2.length = flux2.length)
    (hperm : (time2.zip flux2).Perm (time1.zip flux1)) (hnd : time1.Nodup) :
    sortedPairs time2 flux2 = sortedPairs time1 flux1 := by
  haveI hTot : IsTotal (ℚ × ℚ) (fun p q => p.1 ≤ q.1) := ⟨fun a b => le_total a.1 b.1⟩
  haveI hTrans : IsTrans (ℚ × ℚ) (fun p q => p.1 ≤ q.1) :=
    ⟨fun a b c hab hbc => le_trans hab hbc⟩
  haveI hAnti : IsAntisymm (ℚ × ℚ) (fun p q => p.1 < q.1) :=
    ⟨fun a b h1 h2 => absurd h1 (lt_asymm h2)⟩
  have hps : (sortedPairs time2 flux2).Perm (sortedPairs time1 flux1) :=
    ((List.perm_insertionSort _ _).trans hperm).trans
      (List.perm_insertionSort _ _).symm
  have hkeys1 : ((time1.zip flux1).map Prod.fst).Nodup := by
    rw [List.map_fst_zip time1 flux1 (le_of_eq hl1)]
    exact hnd
  have hkeys2 : ((sortedPairs time1 flux1).map Prod.fst).Nodup :=
    (((List.perm_insertionSort _ _).map Prod.fst).nodup_iff).mpr hkeys1
  have hkeys3 : ((sortedPairs time2 flux2).map Prod.fst).Nodup :=
    ((hps.map Prod.fst).nodup_iff).mpr hkeys2
  have hs1 : (sortedPairs time1 flux1).Pairwise (fun p q => p.1 < q.1) :=
    pairwise_lt_of_sorted_nodup _ (List.sorted_insertionSort _ _) hkeys2
  have hs2 : (sortedPairs time2 flux2).Pairwise (fun p q => p.1 < q.1) :=
    pairwise_lt_of_sorted_nodup _ (List.sorted_insertionSort _ _) hkeys3
  exact List.eq_of_perm_of_sorted hps hs2 hs1

/-- C10 (amended): pbls_search sorts its time and flux inputs jointly by time
at entry, so callers need not pre-sort: whenever the time values are pairwise
distinct (the TimeSeries validity condition), any joint permutation of the
(time, flux) samples produces the identical SearchResult. With duplicated
time values the tie order among equal times follows the input order, so a
permutation can reorder the best-model arrays (see the counterexample). -/
theorem pbls_search_perm_invariant (sq : ℚ → ℚ) (time1 flux1 time2 flux2 : List ℚ)
    (periods durations_hr : List ℚ) (epoch_steps polyOrder : ℕ)
    (hl1 : time1.length = flux1.length) (hl2 : time2.length = flux2.length)
    (hperm : (time2.zip flux2).Perm (time1.zip flux1)) (hnd : time1.Nodup) :
    pbls_search sq time2 flux2 periods durations_hr epoch_steps polyOrder
      = pbls_search sq time1 flux1 periods durations_hr epoch_steps polyOrder := by
  have htimeperm : time2.Perm time1 := by
    have h := hperm.map Prod.fst
    rwa [List.map_fst_zip time2 flux2 (le_of_eq hl2),
      List.map_fst_zip time1 flux1 (le_of_eq hl1)] at h
  unfold pbls_search
  rw [sortedPairs_perm_eq time1 flux1 time2 flux2 hl1 hl2 hperm hnd,
    npMin_perm htimeperm]

theorem pbls_search_perm_invariant_witness :
    (([(1 : ℚ), 0].zip [(6 : ℚ), 5]).Perm ([(0 : ℚ), 1].zip [(5 : ℚ), 6]) ∧
      [(0 : ℚ), 1].Nodup) ∧
    pbls_search (fun _ => 1) [1, 0] [6, 5] [1] [12] 1 2
      = pbls_search (fun _ => 1) [0, 1] [5, 6] [1] [12] 1 2 :=
  ⟨⟨List.Perm.swap ((0 : ℚ), (5 : ℚ)) ((1 : ℚ), (6 : ℚ)) [], by norm_num⟩,
    pbls_search_perm_invariant (fun _ => 1) [0, 1] [5, 6] [1, 0] [6, 5] [1] [12] 1 2
      rfl rfl (List.Perm.swap ((0 : ℚ), (5 : ℚ)) ((1 : ℚ), (6 : ℚ)) []) (by norm_num)⟩

/-- C10 counterexample: with the duplicated time value 0, the joint
permutation swapping the first two samples (which fixes the time array and
swaps the first two fluxes) changes the returned SearchResult: the best-model
flux array keeps the input tie order, [1, 2, 3] versus [2, 1, 3]. So the
claim does not hold for every input and permutation, only for time series
with pairwise distinct time values. -/
theorem pbls_search_perm_counterexample :
    (([(0 : ℚ), 0, 3/5].zip [(2 : ℚ), 1, 3]).Perm
      ([(0 : ℚ), 0, 3/5].zip [(1 : ℚ), 2, 3])) ∧
    ((pbls_search (fun _ => 1) [0, 0, 3/5] [1, 2, 3] [1] [12] 1 0).best_model).map
      Snapshot.flux = some [1, 2, 3] ∧
    ((pbls_search (fun _ => 1) [0, 0, 3/5] [2, 1, 3] [1] [12] 1 0).best_model).map
      Snapshot.flux = some [2, 1, 3] ∧
    pbls_search (fun _ => 1) [0, 0, 3/5] [2, 1, 3] [1] [12] 1 0
      ≠ pbls_search (fun _ => 1) [0, 0, 3/5] [1, 2, 3] [1] [12] 1 0 := by
  have htmin : npMin [0, 0, 3/5] = 0 := by
    norm_num [npMin, min_def]
  have htp : trialPairs [12] 1 1 = [(1/2, 0)] := by
    norm_num [trialPairs, linspace]
  have hrel0 : relPhase 0 1 (1/2) 0 0 = -(1/4) := by
    norm_num [relPhase, qmod, qround]
  have hrel2 : relPhase 0 1 (1/2) 0 (3/5) = 7/20 := by
    norm_num [relPhase, qmod, qround]
  have hli : localIdxList [0, 0, 3/5] 0 1 (1/2) 0 = [0, 1, 2] := by
    norm_num [localIdxList, List.range_succ, List.filter_append, List.filter_cons,
      hrel0, hrel2, abs]
  have hin : inLocalList [0, 0, 3/5] 0 1 (1/2) 0 [0, 1, 2] = [0, 1] := by
    norm_num [inLocalList, List.range_succ, List.filter_append, List.filter_cons,
      hrel0, hrel2, abs]
  have hgood : goodTransitList [0, 0, 3/5] 0 1 (1/2) 0 0 = [([0, 1, 2], [0, 1])] := by
    have hseg : split_segments [0, 1, 2] = [[0, 1, 2]] := rfl
    norm_num [goodTransitList, hli, hseg, List.filterMap_cons, hin]
  have hout : outLocalList [0, 1, 2] [0, 1] = [2] := by
    norm_num [outLocalList, List.range_succ, List.filter_append, List.filter_cons]
  have h1 : ((pbls_search (fun _ => 1) [0, 0, 3/5] [1, 2, 3] [1] [12] 1 0).best_model).map
      Snapshot.flux = some [1, 2, 3] := by
    have hsp : sortedPairs [0, 0, 3/5] [1, 2, 3] = [(0, 1), (0, 2), (3/5, 3)] := by
      norm_num [sortedPairs, List.insertionSort, List.orderedInsert]
    simp only [pbls_search, searchFromSorted, hsp, htmin, List.map_cons, List.map_nil,
      searchPeriods, evalPeriod, htp, List.foldl_cons, List.foldl_nil, stepTrial,
      evalTrial, hli, hgood]
    norm_num [fitSegment, detrend_segment, snrDepth, updateGlobal, hout,
      List.getD_cons_zero, List.getD_cons_succ, List.zipWith_cons_cons, PF.gtB,
      initGlobal]
  have h2 : ((pbls_search (fun _ => 1) [0, 0, 3/5] [2, 1, 3] [1] [12] 1 0).best_model).map
      Snapshot.flux = some [2, 1, 3] := by
    have hsp : sortedPairs [0, 0, 3/5] [2, 1, 3] = [(0, 2), (0, 1), (3/5, 3)] := by
      norm_num [sortedPairs, List.insertionSort, List.orderedInsert]
    simp only [pbls_search, searchFromSorted, hsp, htmin, List.map_cons, List.map_nil,
      searchPeriods, evalPeriod, htp, List.foldl_cons, List.foldl_nil, stepTrial,
      evalTrial, hli, hgood]
    norm_num [fitSegment, detrend_segment, snrDepth, updateGlobal, hout,
      List.getD_cons_zero, List.getD_cons_succ, List.zipWith_cons_cons, PF.gtB,
      initGlobal]
  refine ⟨List.Perm.swap ((0 : ℚ), (1 : ℚ)) ((0 : ℚ), (2 : ℚ)) [((3 : ℚ)/5, (3 : ℚ))],
    h1, h2, ?_⟩
  intro he
  rw [he, h1] at h2
  have : ([(1 : ℚ), 2, 3] : List ℚ) = [2, 1, 3] := Option.some.inj h2
  have h12 : (1 : ℚ) = 2 := by
    injection this
  norm_num at h12

theorem pairwise_filter_of_imp {α : Type} (R : α → α → Prop) (p : α → Bool) :
    ∀ l : List α, l.Pairwise (fun x y => p x = true → p y = true → R x y) →
      (l.filter p).Pairwise R := by
  intro l
  induction l with
  | nil => intro _; simp
  | cons x xs ih =>
    intro h
    rw [List.pairwise_cons] at h
    by_cases hx : p x = true
    · rw [List.filter_cons_of_pos hx, List.pairwise_cons]
      exact ⟨fun y hy => h.1 y (List.mem_of_mem_filter hy) hx (List.of_mem_filter hy),
        ih h.2⟩
    · rw [List.filter_cons_of_neg hx]
      exact ih h.2

theorem jenkinsLoop_spec (c pmax P : ℚ) : 0 < c → 0 < P →
    List.Chain (· < ·) P (jenkinsLoop c pmax P) ∧
    (∀ x ∈ (P :: jenkinsLoop c pmax P).dropLast, x < pmax) ∧
    (∃ last, (P :: jenkinsLoop c pmax P).getLast? = some last ∧ pmax ≤ last) := by
  refine jenkinsLoop.induct c pmax (fun P => 0 < c → 0 < P →
    List.Chain (· < ·) P (jenkinsLoop c pmax P) ∧
    (∀ x ∈ (P :: jenkinsLoop c pmax P).dropLast, x < pmax) ∧
    (∃ last, (P :: jenkinsLoop c pmax P).getLast? = some last ∧ pmax ≤ last)) ?_ ?_ ?_ P
  · intro P h1 h2 ih hc hP
    have hP' : 0 < P + c * P := by nlinarith
    have hlt : P < P + c * P := by nlinarith
    have hloop : jenkinsLoop c pmax P = (P + c * P) :: jenkinsLoop c pmax (P + c * P) := by
      rw [jenkinsLoop.eq_def]
      rw [dif_pos h1, dif_pos h2]
    obtain ⟨ihc, ihd, last, ihl, ihge⟩ := ih hc hP'
    rw [hloop]
    refine ⟨List.Chain.cons hlt ihc, ?_, last, ?_, ihge⟩
    · intro x hx
      rw [List.dropLast_cons₂, List.mem_cons] at hx
      rcases hx with rfl | hx
      · exact h1
      · exact ihd x hx
    · rw [List.getLast?_cons_cons]
      exact ihl
  · intro P h1 h2 hc hP
    exact absurd ⟨hc, hP⟩ h2
  · intro P h1 hc hP
    have hloop : jenkinsLoop c pmax P = [] := by
      rw [jenkinsLoop.eq_def]
      rw [dif_neg h1]
    rw [hloop]
    exact ⟨List.Chain.nil, by intro x hx; simp at hx, P, rfl, le_of_not_lt h1⟩

/-- C8 counterexample: the Jenkins grid with duration = total_time = 1,
period_min = 1, period_max = 2, min_corr = 0.9 (step factor c = 2/5) produces
[1, 7/5, 49/25, 343/125]; its final element 343/125 = 2.744 exceeds
period_max = 2, so the returned array is not contained in
[period_min, period_max] as the claim requires. -/
theorem jenkins_grid_exceeds_period_max :
    generate_Jenkins2010_period_grid 1 1 1 2 (9 / 10)
      = [1, 7 / 5, 49 / 25, 343 / 125] ∧
    (343 / 125 : ℚ) ∈ generate_Jenkins2010_period_grid 1 1 1 2 (9 / 10) ∧
    ¬((343 / 125 : ℚ) ≤ 2) := by
  have hc : (4 * (1 - 9 / 10) * 1 / 1 : ℚ) = 2 / 5 := by norm_num
  have h1 : jenkinsLoop (2 / 5) 2 1 = (7 / 5) :: jenkinsLoop (2 / 5) 2 (7 / 5) := by
    rw [jenkinsLoop.eq_def]
    norm_num
  have h2 : jenkinsLoop (2 / 5) 2 (7 / 5) = (49 / 25) :: jenkinsLoop (2 / 5) 2 (49 / 25) := by
    rw [jenkinsLoop.eq_def]
    norm_num
  have h3 : jenkinsLoop (2 / 5) 2 (49 / 25)
      = (343 / 125) :: jenkinsLoop (2 / 5) 2 (343 / 125) := by
    rw [jenkinsLoop.eq_def]
    norm_num
  have h4 : jenkinsLoop (2 / 5) 2 (343 / 125) = [] := by
    rw [jenkinsLoop.eq_def]
    norm_num
  have hg : generate_Jenkins2010_period_grid 1 1 1 2 (9 / 10)
      = [1, 7 / 5, 49 / 25, 343 / 125] := by
    unfold generate_Jenkins2010_period_grid
    rw [hc, h1, h2, h3, h4]
  refine ⟨hg, ?_, by norm_num⟩
  rw [hg]
  norm_num

theorem ofir_shape_pairwise (A C' pmin pmax : ℝ) (N : ℕ) (hA : 0 < A) (hpmin : 0 < pmin) :
    (((((List.range N).map (fun k : ℕ => (A / 3 * ((k : ℝ) + 1) + C') ^ (3 : ℕ))).reverse.map
        (fun f => 1 / f)).map (fun p => p / 86400)).filter
      (fun p => @decide (pmin < p ∧ p ≤ pmax) (Classical.propDecidable _))).Pairwise
      (· < ·) := by
  apply pairwise_filter_of_imp
  rw [List.pairwise_map, List.pairwise_map, ← List.map_reverse, List.pairwise_map,
    List.pairwise_reverse]
  refine (List.pairwise_lt_range N).imp ?_
  intro a b hab hb ha
  obtain ⟨hb1, _⟩ := @of_decide_eq_true _ (Classical.propDecidable _) hb
  obtain ⟨ha1, _⟩ := @of_decide_eq_true _ (Classical.propDecidable _) ha
  set Fa := (A / 3 * ((a : ℝ) + 1) + C') ^ (3 : ℕ) with hFa_def
  set Fb := (A / 3 * ((b : ℝ) + 1) + C') ^ (3 : ℕ) with hFb_def
  have hpos : ∀ F : ℝ, pmin < 1 / F / 86400 → 0 < F := by
    intro F hF
    by_contra hFn
    push_neg at hFn
    have h1 : 1 / F ≤ 0 := one_div_nonpos.mpr hFn
    have h2 : 1 / F / 86400 ≤ 0 := div_nonpos_of_nonpos_of_nonneg h1 (by norm_num)
    linarith
  have hFb0 : 0 < Fb := hpos Fb hb1
  have hFa0 : 0 < Fa := hpos Fa ha1
  have hcast : (a : ℝ) < (b : ℝ) := by exact_mod_cast hab
  have hbase : A / 3 * ((a : ℝ) + 1) + C' < A / 3 * ((b : ℝ) + 1) + C' := by
    nlinarith
  have hFab : Fa < Fb := by
    rw [hFa_def, hFb_def]
    exact (Odd.strictMono_pow ⟨1, by norm_num⟩) hbase
  have hinv : 1 / Fb < 1 / Fa := one_div_lt_one_div_of_lt hFa0 hFab
  have h86 : (0 : ℝ) < 86400 := by norm_num
  exact div_lt_div_of_pos_right hinv h86

/-- C8 (amended): for positive parameterizations, the Ofir-2014 cubic
frequency grid is strictly ascending and every element lies in
(period_min, period_max]; the Jenkins-2010 duration-overlap grid starts at
period_min and is strictly ascending, but only its elements BEFORE the last
are below period_max - the final element is always >= period_max and can
strictly exceed it (see the counterexample), so the Jenkins grid is not
contained in [period_min, period_max]. -/
theorem alternate_period_grids_spec
    (time_span R_star M_star o_period_min clamp_period_max oversampling_factor : ℝ)
    (n_transits_min : ℕ)
    (duration total_time period_min period_max min_corr : ℚ)
    (hts : 0 < time_span) (hcl : 0 < clamp_period_max) (hR : 0 < R_star) (hM : 0 < M_star)
    (hov : 0 < oversampling_factor) (hpmin : 0 < o_period_min)
    (hd : 0 < duration) (ht : 0 < total_time) (hmc : min_corr < 1) (hjp : 0 < period_min) :
    (∀ p ∈ generate_Ofir2014_period_grid time_span R_star M_star o_period_min
        clamp_period_max oversampling_factor n_transits_min,
      o_period_min < p ∧ p ≤ min (time_span / 2) clamp_period_max) ∧
    (generate_Ofir2014_period_grid time_span R_star M_star o_period_min
        clamp_period_max oversampling_factor n_transits_min).Pairwise (· < ·) ∧
    ((generate_Jenkins2010_period_grid duration total_time period_min period_max
        min_corr).head? = some period_min) ∧
    List.Chain' (· < ·) (generate_Jenkins2010_period_grid duration total_time period_min
        period_max min_corr) ∧
    (∀ x ∈ (generate_Jenkins2010_period_grid duration total_time period_min period_max
        min_corr).dropLast, x < period_max) ∧
    (∃ last, (generate_Jenkins2010_period_grid duration total_time period_min period_max
        min_corr).getLast? = some last ∧ period_max ≤ last) := by
  have hc : (0 : ℚ) < 4 * (1 - min_corr) * duration / total_time :=
    div_pos (by nlinarith) ht
  obtain ⟨hchain, hdrop, last, hl, hge⟩ :=
    jenkinsLoop_spec (4 * (1 - min_corr) * duration / total_time) period_max period_min
      hc hjp
  refine ⟨?_, ?_, rfl, ?_, ?_, last, ?_, hge⟩
  · intro p hp
    simp only [generate_Ofir2014_period_grid] at hp
    exact @of_decide_eq_true _ (Classical.propDecidable _) (List.mem_filter.mp hp).2
  · simp only [generate_Ofir2014_period_grid]
    exact ofir_shape_pairwise _ _ _ _ _ (by positivity) hpmin
  · exact hchain
  · exact hdrop
  · exact hl

theorem alternate_period_grids_spec_witness :
    ((0 : ℝ) < 10 ∧ (0 : ℚ) < 1 ∧ (9 / 10 : ℚ) < 1) ∧
    (∃ last, (generate_Jenkins2010_period_grid 1 1 1 2 (9 / 10)).getLast? = some last ∧
      (2 : ℚ) ≤ last) :=
  ⟨⟨by norm_num, by norm_num, by norm_num⟩,
    (alternate_period_grids_spec 10 1 1 2 50 1 3 1 1 1 2 (9 / 10) (by norm_num)
      (by norm_num) (by norm_num) (by norm_num) (by norm_num) (by norm_num) (by norm_num)
      (by norm_num) (by norm_num) (by norm_num)).2.2.2.2.2⟩
